import Mathlib

/-!
# ogen: schema walker (`walk.go`) and the decimal constraint validator

A shallow embedding of `WalkAllSchemas` and its helpers, with theorems about
the calls the walker makes to its two callbacks and about the value it
returns.

Modelling conventions
* A Go pointer that the walker tests against `nil` (`*Schema`, `*Operation`,
  `*RequestBody`, `*Items`) is an `Option`.  So is a `*Parameter`, which
  `walkAllSchemasInParameters` receives and dereferences without a test: a nil
  parameter ends the run in a panic.
* The `*Spec` argument of `WalkAllSchemas` is taken to point to a spec, and the
  values whose declarations are not at hand (path items, responses, media
  types) are taken as present.
* A schema tree is a value: a node reached through two pointers counts as two
  nodes, and what a callback writes through one pointer is not seen through
  the other.
* A Go map is the list of its entries in the order the `range` loop yields
  them.
* Callbacks are Go closures: they are state-passing functions over an
  arbitrary state type `σ`.  The repair callback receives a pointer to the
  schema and may write through it, so it also returns the schema as it stands
  after the call.
* A run of the walker yields its outcome (normal return with an `error`
  value, nil-pointer panic, or recursion budget exhausted), the log of callback
  invocations in order, and the final callback state.
-/

namespace Ogen

/-! ## Errors -/

/-- Go `error` values, compared by identity.  `ErrMissingItemsInArray` is the
package-level sentinel, `doFunctionIsNil` is the value built by
`errors.New("do function is nil")`, and `custom n` stands for any error value
made by a caller. -/
inductive GoError where
  | ErrMissingItemsInArray
  | doFunctionIsNil
  | custom (id : Nat)
  deriving DecidableEq, Repr

/-! ## Data model -/

mutual
/-- Modelled from the spec: the `Schema` type declaration is not part of the
sources at hand; the fields are those `walkSchema` reads. -/
inductive Schema where
  | mk (Ref : String) (Type_ : String) (AllOf : List (Option Schema))
      (OneOf : List (Option Schema)) (Properties : List Property)
      (Items : Option Items)
/-- Modelled from the spec: a named property of an object schema. -/
inductive Property where
  | mk (Name : String) (Schema : Option Schema)
/-- Modelled from the spec: the item descriptor of an array schema, holding
the single item schema and the tuple item schemas. -/
inductive Items where
  | mk (Item : Option Schema) (Items : List (Option Schema))
end

/-- Field `Ref`. -/
def Schema.Ref : Schema → String
  | .mk r _ _ _ _ _ => r

/-- Field `Type`. -/
def Schema.Type_ : Schema → String
  | .mk _ t _ _ _ _ => t

/-- Field `AllOf`. -/
def Schema.AllOf : Schema → List (Option Schema)
  | .mk _ _ a _ _ _ => a

/-- Field `OneOf`. -/
def Schema.OneOf : Schema → List (Option Schema)
  | .mk _ _ _ o _ _ => o

/-- Field `Properties`. -/
def Schema.Properties : Schema → List Property
  | .mk _ _ _ _ p _ => p

/-- Field `Items`. -/
def Schema.Items : Schema → Option Items
  | .mk _ _ _ _ _ i => i

/-- Field `Name`. -/
def Property.Name : Property → String
  | .mk n _ => n

/-- Field `Schema`. -/
def Property.Schema : Property → Option Schema
  | .mk _ s => s

/-- Field `Item`. -/
def Items.Item : Items → Option Schema
  | .mk i _ => i

/-- Field `Items`. -/
def Items.Items : Items → List (Option Schema)
  | .mk _ l => l

/-- Modelled from the spec: a media type wraps a schema. -/
structure Media where
  Schema : Option Schema

/-- Modelled from the spec: a parameter has a schema and a media-type map. -/
structure Parameter where
  Schema : Option Schema
  Content : List (String × Media)

/-- Modelled from the spec: a request body is a media-type map. -/
structure RequestBody where
  Content : List (String × Media)

/-- Modelled from the spec: a response is a media-type map. -/
structure Response where
  Content : List (String × Media)

/-- Modelled from the spec: an operation.  Its parameters are pointers, as
the element type `*Parameter` of `walkAllSchemasInParameters` shows. -/
structure Operation where
  Parameters : List (Option Parameter)
  RequestBody : Option RequestBody
  Responses : List (String × Response)

/-- Modelled from the spec: a path item with its shared parameters and the
eight method slots. -/
structure PathItem where
  Parameters : List (Option Parameter)
  Get : Option Operation
  Put : Option Operation
  Post : Option Operation
  Delete : Option Operation
  Options : Option Operation
  Head : Option Operation
  Patch : Option Operation
  Trace : Option Operation

/-- Modelled from the spec: the components section. -/
structure Components where
  Schemas : List (String × Option Schema)
  Parameters : List (String × Option Parameter)

/-- Modelled from the spec: the root document. -/
structure Spec where
  Paths : List (String × PathItem)
  Components : Components

/-! ## Callbacks and runs -/

/-- The type `ProcessSchema = func(schema *Schema) error`, as a closure over a
state `σ`. -/
abbrev ProcessSchema (σ : Type) := Schema → σ → Option GoError × σ

/-- The type `FixSchema = func(err error, name string, schema *Schema) error`,
as a closure over a state `σ`; the second component is the pointed-to schema
after the call. -/
abbrev FixSchema (σ : Type) := GoError → String → Schema → σ → Option GoError × Schema × σ

/-- One callback invocation, with its arguments and the error it returned. -/
inductive Call where
  | process (schema : Schema) (ret : Option GoError)
  | repair (err : GoError) (name : String) (schema : Schema) (ret : Option GoError)

/-- The error returned by a callback invocation. -/
def Call.ret : Call → Option GoError
  | .process _ r => r
  | .repair _ _ _ r => r

/-- How a run ends. -/
inductive Outcome where
  | returned (err : Option GoError)
  | panicked
  | outOfFuel
  deriving DecidableEq, Repr

/-- A run: outcome, callback log, final callback state. -/
structure Run (σ : Type) where
  outcome : Outcome
  calls : List Call
  state : σ

/-- The run that returns `nil` without calling anything. -/
def Run.skip {σ : Type} (st : σ) : Run σ := ⟨.returned none, [], st⟩

/-- Sequencing of `if err := step; err != nil { return err }` with the rest of
the function body. -/
def Run.andThen {σ : Type} (r : Run σ) (k : σ → Run σ) : Run σ :=
  match r.outcome with
  | .returned none =>
    let r2 := k r.state
    ⟨r2.outcome, r.calls ++ r2.calls, r2.state⟩
  | _ => r

/-- The loop `for _, x := range xs { if err := body(x); err != nil { return err } }`. -/
def forEach {α σ : Type} (body : α → σ → Run σ) : List α → σ → Run σ
  | [], st => Run.skip st
  | x :: rest, st => (body x st).andThen (forEach body rest)

/-! ## The walker -/

/-- The function `walkSchema`; the first argument bounds the recursion depth. -/
def walkSchema {σ : Type} (doFn : ProcessSchema σ) (fix : FixSchema σ) :
    Nat → String → Option Schema → σ → Run σ
  | 0, _, _, st => ⟨.outOfFuel, [], st⟩
  | fuel + 1, name, schema, st =>
    match schema with
    | none => Run.skip st
    | some schema =>
      if schema.Ref ≠ "" then Run.skip st
      else
        (forEach (walkSchema doFn fix fuel "") schema.AllOf st).andThen fun st =>
        (forEach (walkSchema doFn fix fuel "") schema.OneOf st).andThen fun st =>
        if schema.Type_ = "object" then
          forEach (fun prop => walkSchema doFn fix fuel prop.Name prop.Schema)
            schema.Properties st
        else if schema.Type_ = "array" then
          let fixed : Run σ × Schema :=
            match schema.Items with
            | some _ => (Run.skip st, schema)
            | none =>
              let r := fix .ErrMissingItemsInArray name schema st
              (⟨.returned r.1, [.repair .ErrMissingItemsInArray name schema r.1], r.2.2⟩,
                r.2.1)
          fixed.1.andThen fun st =>
            match fixed.2.Items with
            | none => ⟨.panicked, [], st⟩
            | some items =>
              (walkSchema doFn fix fuel "" items.Item st).andThen fun st =>
              forEach (walkSchema doFn fix fuel "") items.Items st
        else
          let r := doFn schema st
          ⟨.returned r.1, [.process schema r.1], r.2⟩

/-- The function `walkAllSchemasInParameters`.  The loop body reads `p.Schema`
without testing `p`, so a nil parameter is a nil-pointer panic. -/
def walkAllSchemasInParameters {σ : Type} (doFn : ProcessSchema σ) (fix : FixSchema σ)
    (fuel : Nat) (params : List (Option Parameter)) (st : σ) : Run σ :=
  forEach (fun (p : Option Parameter) st =>
    match p with
    | none => ⟨.panicked, [], st⟩
    | some p =>
      (walkSchema doFn fix fuel "" p.Schema st).andThen fun st =>
      forEach (fun (k : String × Media) => walkSchema doFn fix fuel "" k.2.Schema)
        p.Content st)
    params st

/-- The function `walkAllSchemasInOperation`. -/
def walkAllSchemasInOperation {σ : Type} (doFn : ProcessSchema σ) (fix : FixSchema σ)
    (fuel : Nat) (operation : Option Operation) (st : σ) : Run σ :=
  match operation with
  | none => Run.skip st
  | some operation =>
    (walkAllSchemasInParameters doFn fix fuel operation.Parameters st).andThen fun st =>
    (match operation.RequestBody with
      | none => Run.skip st
      | some body =>
        forEach (fun (m : String × Media) => walkSchema doFn fix fuel "" m.2.Schema)
          body.Content st).andThen fun st =>
    forEach (fun (r : String × Response) =>
      forEach (fun (m : String × Media) => walkSchema doFn fix fuel "" m.2.Schema) r.2.Content)
      operation.Responses st

/-- The closure `func(err error, name string, schema *Schema) error { return err }`
that `WalkAllSchemas` installs in place of a nil `fix`. -/
def defaultFix {σ : Type} : FixSchema σ := fun err _ schema st => (some err, schema, st)

/-- The statement `if fix == nil { fix = ... }`. -/
def fixOrDefault {σ : Type} : Option (FixSchema σ) → FixSchema σ
  | none => defaultFix
  | some f => f

/-- The function `WalkAllSchemas`; a nil callback is `none`. -/
def WalkAllSchemas {σ : Type} (fuel : Nat) (spec : Spec) (doFn : Option (ProcessSchema σ))
    (fix : Option (FixSchema σ)) (st : σ) : Run σ :=
  match doFn with
  | none => ⟨.returned (some .doFunctionIsNil), [], st⟩
  | some doFn =>
    let fix : FixSchema σ := fixOrDefault fix
    (forEach (fun (item : String × PathItem) st =>
      (walkAllSchemasInParameters doFn fix fuel item.2.Parameters st).andThen fun st =>
      forEach (walkAllSchemasInOperation doFn fix fuel)
        [item.2.Get, item.2.Put, item.2.Post, item.2.Delete, item.2.Options, item.2.Head,
          item.2.Patch, item.2.Trace] st)
      spec.Paths st).andThen fun st =>
    (walkAllSchemasInParameters doFn fix fuel (spec.Components.Parameters.map Prod.snd)
      st).andThen fun st =>
    forEach (fun (s : String × Option Schema) => walkSchema doFn fix fuel "" s.2)
      spec.Components.Schemas st

/-! ## Static description of a traversal

The functions below follow the recursive descent rule (nil or `Ref`: stop;
`AllOf` children, then `OneOf` children, then the branch on `Type`) on a
schema tree as it stands before the walk.  They are what the walker is
compared with. -/

/-- The schema pointers handed to `walkSchema` by `walkAllSchemasInParameters`
for one parameter, in order. -/
def Parameter.roots (p : Parameter) : List (Option Ogen.Schema) :=
  p.Schema :: p.Content.map fun k => k.2.Schema

/-- The roots of one entry of a parameter sequence: a root is `some p` for a
schema pointer `p` handed to `walkSchema`, and `none` for the dereference of a
nil parameter. -/
def parameterRoots : Option Parameter → List (Option (Option Schema))
  | none => [none]
  | some p => p.roots.map some

/-- The roots of a sequence of parameters. -/
def paramsRoots (ps : List (Option Parameter)) : List (Option (Option Schema)) :=
  ps.flatMap parameterRoots

/-- The root schema pointers of a media-type map. -/
def contentRoots (c : List (String × Media)) : List (Option Schema) :=
  c.map fun m => m.2.Schema

/-- The roots of an operation slot: parameters, request body, responses. -/
def operationRoots : Option Operation → List (Option (Option Schema))
  | none => []
  | some op =>
    paramsRoots op.Parameters ++
      ((match op.RequestBody with
        | none => []
        | some body => (contentRoots body.Content).map some) ++
       op.Responses.flatMap fun r => (contentRoots r.2.Content).map some)

/-- The eight method slots of a path item in the order of the array literal in
`WalkAllSchemas`. -/
def PathItem.slots (item : PathItem) : List (Option Operation) :=
  [item.Get, item.Put, item.Post, item.Delete, item.Options, item.Head, item.Patch, item.Trace]

/-- The roots of a path item. -/
def PathItem.roots (item : PathItem) : List (Option (Option Schema)) :=
  paramsRoots item.Parameters ++ item.slots.flatMap operationRoots

/-- Every root of a walk of the spec, in order: the path items, then the
component parameters, then the component schemas. -/
def Spec.roots (spec : Spec) : List (Option (Option Schema)) :=
  spec.Paths.flatMap (fun item => item.2.roots) ++
    (paramsRoots (spec.Components.Parameters.map Prod.snd) ++
     spec.Components.Schemas.map fun s => some s.2)

/-- Every schema pointer on which `WalkAllSchemas` can start a descent, in
order (the roots that are not the dereference of a nil parameter). -/
def Spec.schemaRoots (spec : Spec) : List (Option Schema) :=
  spec.roots.filterMap fun r => r

/-- What `WalkAllSchemas` does at a root: it panics on a nil parameter and
calls `walkSchema` with an empty contextual name on a schema pointer. -/
def walkRoot {σ : Type} (doFn : ProcessSchema σ) (fix : FixSchema σ) (fuel : Nat) :
    Option (Option Schema) → σ → Run σ
  | none, st => ⟨.panicked, [], st⟩
  | some p, st => walkSchema doFn fix fuel "" p st

/-- No entry of a parameter sequence is nil. -/
def noNilIn (ps : List (Option Parameter)) : Bool :=
  ps.all fun p => p.isSome

/-- No parameter pointer of an operation slot is nil. -/
def operationNoNil : Option Operation → Bool
  | none => true
  | some op => noNilIn op.Parameters

/-- No parameter pointer of the spec is nil: neither among the shared
parameters of a path item, nor among the parameters of an operation, nor in
`Components.Parameters`. -/
def Spec.noNilParameter (spec : Spec) : Bool :=
  (spec.Paths.all fun item =>
    noNilIn item.2.Parameters && item.2.slots.all operationNoNil) &&
  noNilIn (spec.Components.Parameters.map Prod.snd)

mutual
/-- Nesting depth of a schema tree (every field counted, whatever the `Type`). -/
def Schema.depth : Schema → Nat
  | .mk _ _ allOf oneOf props items =>
    1 + max (max (depthList allOf) (depthList oneOf)) (max (depthProps props) (depthItems items))
/-- Depth below a schema pointer. -/
def depthOpt : Option Schema → Nat
  | none => 0
  | some s => s.depth
/-- Largest depth in a sequence of schema pointers. -/
def depthList : List (Option Schema) → Nat
  | [] => 0
  | x :: xs => max (depthOpt x) (depthList xs)
/-- Largest depth among the property schemas. -/
def depthProps : List Property → Nat
  | [] => 0
  | .mk _ s :: ps => max (depthOpt s) (depthProps ps)
/-- Largest depth in an item descriptor. -/
def depthItems : Option Items → Nat
  | none => 0
  | some (.mk item tuple) => max (depthOpt item) (depthList tuple)
end

/-- Depth of the deepest schema tree of a spec. -/
def Spec.depth (spec : Spec) : Nat := depthList spec.schemaRoots

mutual
/-- The nodes the descent rule enters below a schema, each paired with its
contextual name: the `AllOf` subtrees, the `OneOf` subtrees, the node itself,
then the properties of an object or the items of an array.  A `Ref` node is
not entered. -/
def Schema.reachable (name : String) : Schema → List (String × Schema)
  | .mk ref ty allOf oneOf props items =>
    if ref ≠ "" then []
    else
      reachableList allOf ++ (reachableList oneOf ++
        ((name, .mk ref ty allOf oneOf props items) ::
          (if ty = "object" then reachableProps props
           else if ty = "array" then reachableItems items
           else [])))
/-- Nodes entered below a schema pointer. -/
def reachableOpt (name : String) : Option Schema → List (String × Schema)
  | none => []
  | some s => s.reachable name
/-- Nodes entered below a sequence of schema pointers, each with an empty
contextual name. -/
def reachableList : List (Option Schema) → List (String × Schema)
  | [] => []
  | x :: xs => reachableOpt "" x ++ reachableList xs
/-- Nodes entered below the properties of an object, each with the property
name as contextual name. -/
def reachableProps : List Property → List (String × Schema)
  | [] => []
  | .mk n s :: ps => reachableOpt n s ++ reachableProps ps
/-- Nodes entered below an item descriptor: the single item, then the tuple
items. -/
def reachableItems : Option Items → List (String × Schema)
  | none => []
  | some (.mk item tuple) => reachableOpt "" item ++ reachableList tuple
end

/-- Every node the descent rule enters during a walk of the spec. -/
def Spec.reachable (spec : Spec) : List (String × Schema) :=
  reachableList spec.schemaRoots

/-- A primitive schema: its `Type` is neither `object` nor `array`. -/
def Schema.isPrimitive (s : Schema) : Bool :=
  !(decide (s.Type_ = "object") || decide (s.Type_ = "array"))

/-- An array-typed schema without item descriptor. -/
def Schema.missingItems (s : Schema) : Bool :=
  decide (s.Type_ = "array") && s.Items.isNone

/-- The reachable primitive schemas of a spec, in traversal order. -/
def Spec.leaves (spec : Spec) : List Schema :=
  (spec.reachable.filter fun v => v.2.isPrimitive).map Prod.snd

mutual
/-- Holds when `p` is true of every node of the tree, reachable or not. -/
def Schema.all (p : Schema → Bool) : Schema → Bool
  | .mk ref ty allOf oneOf props items =>
    p (.mk ref ty allOf oneOf props items) &&
      (allList p allOf && (allList p oneOf && (allProps p props && allItems p items)))
/-- The predicate `Schema.all` below a schema pointer. -/
def allOpt (p : Schema → Bool) : Option Schema → Bool
  | none => true
  | some s => s.all p
/-- The predicate `Schema.all` on a sequence of schema pointers. -/
def allList (p : Schema → Bool) : List (Option Schema) → Bool
  | [] => true
  | x :: xs => allOpt p x && allList p xs
/-- The predicate `Schema.all` on the property schemas. -/
def allProps (p : Schema → Bool) : List Property → Bool
  | [] => true
  | .mk _ s :: ps => allOpt p s && allProps p ps
/-- The predicate `Schema.all` on an item descriptor. -/
def allItems (p : Schema → Bool) : Option Items → Bool
  | none => true
  | some (.mk item tuple) => allOpt p item && allList p tuple
end

/-- No schema of the spec has a non-empty `Ref`. -/
def Spec.noRef (spec : Spec) : Bool :=
  allList (fun s => decide (s.Ref = "")) spec.schemaRoots

/-- No array-typed schema of the spec lacks its item descriptor. -/
def Spec.noMissingItems (spec : Spec) : Bool :=
  allList (fun s => !s.missingItems) spec.schemaRoots

/-! ## Properties of runs -/

/-- The shape of every callback invocation made by a walk with the callbacks
`doFn` and `fix`: process is called on non-`Ref` primitive schemas, repair is
called with the sentinel on non-`Ref` arrays without item descriptor, and the
logged result is what the callback returned in some state. -/
def Call.ok {σ : Type} (doFn : ProcessSchema σ) (fix : FixSchema σ) : Call → Prop
  | .process s r =>
    s.Ref = "" ∧ s.Type_ ≠ "object" ∧ s.Type_ ≠ "array" ∧ ∃ st, (doFn s st).1 = r
  | .repair e n s r =>
    e = .ErrMissingItemsInArray ∧ s.Ref = "" ∧ s.Type_ = "array" ∧ s.Items = none ∧
      ∃ st, (fix e n s st).1 = r

/-- The positions of the descent rule, with their contextual names.
`Entered fix name root n s` holds when a descent that starts at the pointer
`root` under the contextual name `name` can enter the node `s` under the
contextual name `n`: the starting node keeps `name`, the schema of a property
of an object gets the property's `Name`, and the children of `AllOf` and
`OneOf` and the items of an array get the empty name, whether the item
descriptor was part of the schema or was installed on it by a call of `fix`
that returned nil.  Nothing is entered below a `Ref` node or below the children
that do not match the `Type`. -/
inductive Entered {σ : Type} (fix : FixSchema σ) :
    String → Option Schema → String → Schema → Prop where
  | self (name : String) (s : Schema) (href : s.Ref = "") : Entered fix name (some s) name s
  | allOf (name : String) (r : Schema) (c : Option Schema) (n : String) (s : Schema)
      (href : r.Ref = "") (hc : c ∈ r.AllOf) (h : Entered fix "" c n s) :
      Entered fix name (some r) n s
  | oneOf (name : String) (r : Schema) (c : Option Schema) (n : String) (s : Schema)
      (href : r.Ref = "") (hc : c ∈ r.OneOf) (h : Entered fix "" c n s) :
      Entered fix name (some r) n s
  | property (name : String) (r : Schema) (p : Property) (n : String) (s : Schema)
      (href : r.Ref = "") (hty : r.Type_ = "object") (hp : p ∈ r.Properties)
      (h : Entered fix p.Name p.Schema n s) : Entered fix name (some r) n s
  | item (name : String) (r : Schema) (d : Items) (c : Option Schema) (n : String)
      (s : Schema) (href : r.Ref = "") (hty : r.Type_ = "array") (hd : r.Items = some d)
      (hc : c = d.Item ∨ c ∈ d.Items) (h : Entered fix "" c n s) :
      Entered fix name (some r) n s
  | installed (name : String) (r : Schema) (st : σ) (d : Items) (c : Option Schema)
      (n : String) (s : Schema) (href : r.Ref = "") (hty : r.Type_ = "array")
      (hd : r.Items = none) (hret : (fix .ErrMissingItemsInArray name r st).1 = none)
      (hinst : (fix .ErrMissingItemsInArray name r st).2.1.Items = some d)
      (hc : c = d.Item ∨ c ∈ d.Items) (h : Entered fix "" c n s) :
      Entered fix name (some r) n s

/-- A repair call is made at a position entered from `root` under `name`, with
the contextual name of that position. -/
def Call.entered {σ : Type} (fix : FixSchema σ) (name : String) (root : Option Schema) :
    Call → Prop
  | .process _ _ => True
  | .repair _ n s _ => Entered fix name root n s

/-- A repair call is made at a position entered from one of the given root
pointers, each started under the empty contextual name. -/
def Call.enteredFrom {σ : Type} (fix : FixSchema σ) (roots : List (Option Schema)) :
    Call → Prop
  | .process _ _ => True
  | .repair _ n s _ => ∃ root ∈ roots, Entered fix "" root n s

/-- A run is fail-fast when a returned error is the error of its last callback
invocation and every other invocation returned nil. -/
def Run.failFast {σ : Type} (r : Run σ) : Prop :=
  (∀ e, r.outcome = .returned (some e) →
    ∃ init c, r.calls = init ++ [c] ∧ c.ret = some e ∧ ∀ c2 ∈ init, c2.ret = none) ∧
  ((∀ e, r.outcome ≠ .returned (some e)) → ∀ c ∈ r.calls, c.ret = none)

/-- The callback invocation the walker owes to a node it enters, when every
callback returns nil: nothing for an object or a well-formed array, a repair
call for an array without item descriptor, a process call for a primitive. -/
def expectedCall (v : String × Schema) : Option Call :=
  if v.2.Type_ = "object" then none
  else if v.2.Type_ = "array" then
    match v.2.Items with
    | none => some (.repair .ErrMissingItemsInArray v.1 v.2 none)
    | some _ => none
  else some (.process v.2 none)

/-- A repair callback answers the node `v` by installing an empty item
descriptor (`schema.Items = &Items{}`) and returning nil. -/
def installsEmpty {σ : Type} (fix : FixSchema σ) (v : String × Schema) : Prop :=
  ∀ st, (fix .ErrMissingItemsInArray v.1 v.2 st).1 = none ∧
    (fix .ErrMissingItemsInArray v.1 v.2 st).2.1.Items = some (.mk none [])

/-- Whether a log entry is a repair call. -/
def Call.isRepair : Call → Bool
  | .process _ _ => false
  | .repair _ _ _ _ => true

/-- The Go assignment `schema.Items = items`. -/
def Schema.withItems : Schema → Option Ogen.Items → Schema
  | .mk ref ty allOf oneOf props _, items => .mk ref ty allOf oneOf props items

/-- The repair calls owed to the reachable defective arrays of a spec, each
with the contextual name of its position. -/
def Spec.expectedRepairs (spec : Spec) : List Call :=
  (spec.reachable.filter fun v => v.2.missingItems).map fun v =>
    Call.repair .ErrMissingItemsInArray v.1 v.2 none

/-! ## The steps of a walk, in order -/

/-- Sequential execution of a list of steps: each step starts in the state
left by the previous one, and the first step that does not return nil ends
the run. -/
def runSteps {σ : Type} (steps : List (σ → Run σ)) (st : σ) : Run σ :=
  forEach (fun step => step) steps st

/-- The statement `return do(schema)` of `walkSchema`. -/
def processStep {σ : Type} (doFn : ProcessSchema σ) (schema : Schema) (st : σ) : Run σ :=
  ⟨.returned (doFn schema st).1, [.process schema (doFn schema st).1], (doFn schema st).2⟩

/-- The descent of `walkSchema` into an item descriptor: the single item, then
the tuple items. -/
def walkItems {σ : Type} (doFn : ProcessSchema σ) (fix : FixSchema σ) (fuel : Nat)
    (items : Items) (st : σ) : Run σ :=
  (walkSchema doFn fix fuel "" items.Item st).andThen fun st =>
    forEach (walkSchema doFn fix fuel "") items.Items st

/-- The `array` case of `walkSchema` on a schema without item descriptor: the
repair call, then the descent into whatever descriptor the schema holds after
the call. -/
def repairAndDescend {σ : Type} (doFn : ProcessSchema σ) (fix : FixSchema σ) (fuel : Nat)
    (name : String) (schema : Schema) (st : σ) : Run σ :=
  (⟨.returned (fix .ErrMissingItemsInArray name schema st).1,
    [.repair .ErrMissingItemsInArray name schema (fix .ErrMissingItemsInArray name schema st).1],
    (fix .ErrMissingItemsInArray name schema st).2.2⟩ : Run σ).andThen fun st2 =>
    match (fix .ErrMissingItemsInArray name schema st).2.1.Items with
    | none => ⟨.panicked, [], st2⟩
    | some items => walkItems doFn fix fuel items st2

/-- The steps of the type switch of `walkSchema`, in order: the properties of
an object in declared order, the single item and then the tuple items of an
array, the process call for any other type. -/
def typeSteps {σ : Type} (doFn : ProcessSchema σ) (fix : FixSchema σ) (fuel : Nat)
    (name : String) (schema : Schema) : List (σ → Run σ) :=
  if schema.Type_ = "object" then
    schema.Properties.map fun prop => walkSchema doFn fix fuel prop.Name prop.Schema
  else if schema.Type_ = "array" then
    match schema.Items with
    | some items =>
      walkSchema doFn fix fuel "" items.Item :: items.Items.map (walkSchema doFn fix fuel "")
    | none => [repairAndDescend doFn fix fuel name schema]
  else [processStep doFn schema]

/-- The body of the loop over `spec.Paths` in `WalkAllSchemas`: the shared
parameters of the path item, then its eight method slots. -/
def walkPathItem {σ : Type} (doFn : ProcessSchema σ) (fix : FixSchema σ) (fuel : Nat)
    (item : PathItem) (st : σ) : Run σ :=
  (walkAllSchemasInParameters doFn fix fuel item.Parameters st).andThen fun st =>
    forEach (walkAllSchemasInOperation doFn fix fuel)
      [item.Get, item.Put, item.Post, item.Delete, item.Options, item.Head, item.Patch,
        item.Trace] st

/-- The Go assignment `schema.Properties = props`. -/
def Schema.withProperties : Schema → List Property → Schema
  | .mk ref ty allOf oneOf _ items, props => .mk ref ty allOf oneOf props items

/-! ## Concrete inputs -/

/-- The literal `&Schema{Type: ty}`. -/
def schemaOfType (ty : String) : Schema := .mk "" ty [] [] [] none

/-- The literal `&Schema{Type: "array"}`: an array without item descriptor. -/
def bareArray : Schema := schemaOfType "array"

/-- A spec whose only content is the given component schemas. -/
def specOfSchemas (schemas : List (String × Option Schema)) : Spec :=
  ⟨[], ⟨schemas, []⟩⟩

/-- A process callback that accepts every schema. -/
def acceptAll : ProcessSchema Unit := fun _ st => (none, st)

/-- A process callback that rejects every schema with the given error. -/
def rejectAll (e : GoError) : ProcessSchema Unit := fun _ st => (some e, st)

/-- A repair callback that returns nil and leaves the schema as it is. -/
def tolerate : FixSchema Unit := fun _ _ schema st => (none, schema, st)

/-- A repair callback that returns the given error. -/
def refuse (e : GoError) : FixSchema Unit := fun _ _ schema st => (some e, schema, st)

/-- A spec with a defective array followed by a string schema. -/
def specArrayThenString : Spec :=
  specOfSchemas [("a", some bareArray), ("b", some (schemaOfType "string"))]

/-- A spec with two primitive component schemas. -/
def specTwoStrings : Spec :=
  specOfSchemas [("a", some (schemaOfType "string")), ("b", some (schemaOfType "integer"))]

/-- A reference node that is array-typed, has no item descriptor, and carries
composition branches and properties. -/
def refArray : Schema :=
  .mk "#/components/schemas/Pet" "array" [some (schemaOfType "string")]
    [some bareArray] [.mk "p" (some (schemaOfType "string"))] none

/-- An object schema with a string property, an array-of-integers property and
a composition branch. -/
def petSchema : Schema :=
  .mk "" "object" [some (schemaOfType "boolean")] []
    [.mk "name" (some (schemaOfType "string")),
     .mk "tags" (some (.mk "" "array" [] [] [] (some (.mk (some (schemaOfType "integer")) []))))]
    none

/-- A spec with one path (a shared parameter, a `Get` operation with a
parameter, a request body and a response) and one component schema. -/
def petSpec : Spec :=
  { Paths := [("/pets", {
      Parameters := [some ⟨some (schemaOfType "string"), []⟩]
      Get := some {
        Parameters := [some ⟨none, [("application/json", ⟨some (schemaOfType "number")⟩)]⟩]
        RequestBody := some ⟨[("application/json", ⟨some petSchema⟩)]⟩
        Responses := [("200", ⟨[("application/json", ⟨some (schemaOfType "integer")⟩)]⟩)] }
      Put := none, Post := none, Delete := none, Options := none, Head := none,
      Patch := none, Trace := none })]
    Components := ⟨[("Pet", some petSchema)], []⟩ }

/-- A repair callback that installs an empty item descriptor
(`schema.Items = &Items{}`) and returns nil. -/
def installEmptyItems : FixSchema Unit :=
  fun _ _ schema st => (none, schema.withItems (some (.mk none [])), st)

/-- A spec with three defective arrays: a component schema, a property of an
object, and the item of an array. -/
def specDefectiveArrays : Spec :=
  specOfSchemas
    [("a", some bareArray),
     ("b", some (.mk "" "object" [] [] [.mk "tags" (some bareArray)] none)),
     ("c", some (.mk "" "array" [] [] [] (some (.mk (some bareArray) []))))]

/-- A string schema with an `AllOf` branch and a `OneOf` branch, which also
carries properties and an item descriptor that hold defective arrays. -/
def leafWithChildren : Schema :=
  .mk "" "string" [some (schemaOfType "integer")] [some (schemaOfType "boolean")]
    [.mk "p" (some bareArray)] (some (.mk (some bareArray) [some bareArray]))

/-- The item descriptor `&Items{Item: string, Items: [integer]}`. -/
def stringThenInteger : Items :=
  .mk (some (schemaOfType "string")) [some (schemaOfType "integer")]

/-- A repair callback that installs `stringThenInteger` and returns nil. -/
def installStringThenInteger : FixSchema Unit :=
  fun _ _ schema st => (none, schema.withItems (some stringThenInteger), st)

/-- A spec without any schema whose only path item has a nil entry in its
shared parameters. -/
def specNilParameter : Spec :=
  { Paths := [("/pets", {
      Parameters := [none]
      Get := none, Put := none, Post := none, Delete := none, Options := none,
      Head := none, Patch := none, Trace := none })]
    Components := ⟨[], []⟩ }

/-! ## The decimal constraint validator

Only the tests of package `validate` are among the sources; the validator
itself is modelled from its specification.  A `decimal.Decimal` value is
modelled by the rational number it denotes, so comparison and remainder are
exact. -/

/-- Modelled from the spec: the three kinds of violation `Validate` reports. -/
inductive Violation where
  | max
  | min
  | multipleOf
  deriving DecidableEq, Repr

/-- Modelled from the spec: the `Decimal` validator, whose declaration is
missing from the sources.  The zero value `Decimal{}` has every flag false and
every bound zero. -/
structure Decimal where
  MultipleOf : ℚ := 0
  MultipleOfSet : Bool := false
  Max : ℚ := 0
  MaxExclusive : Bool := false
  MaxSet : Bool := false
  Min : ℚ := 0
  MinExclusive : Bool := false
  MinSet : Bool := false

/-- Modelled from the spec: the exact remainder `value modulo m` of the
division truncated toward zero (the sign follows `value`), whose method is
missing from the sources.  With `value = a/b` and `m = c/d` it is
`((a*d) mod (c*b)) / (b*d)`, computed on integers only. -/
def decimalMod (value m : ℚ) : ℚ :=
  mkRat ((value.num * m.den).tmod (m.num * value.den)) (value.den * m.den)

/-- Modelled from the spec: the method `Validate`, missing from the sources.
The checks run in the order Max, Min, MultipleOf and the first violation is
returned; `none` is the nil error. -/
def Decimal.Validate (d : Decimal) (value : ℚ) : Option Violation :=
  if d.MaxSet && ((d.MaxExclusive && decide (value ≥ d.Max)) ||
      (!d.MaxExclusive && decide (value > d.Max))) then some .max
  else if d.MinSet && ((d.MinExclusive && decide (value ≤ d.Min)) ||
      (!d.MinExclusive && decide (value < d.Min))) then some .min
  else if d.MultipleOfSet && decide (decimalMod value d.MultipleOf ≠ 0) then some .multipleOf
  else none

/-- Modelled from the spec: the method `Set` (the spec's `Configured`), missing
from the sources: true when any of the three constraints is configured. -/
def Decimal.Set (d : Decimal) : Bool :=
  d.MaxSet || d.MinSet || d.MultipleOfSet

/-- Modelled from the spec: the setter `SetMaximum`, missing from the sources. -/
def Decimal.SetMaximum (d : Decimal) (v : ℚ) : Decimal :=
  { d with Max := v, MaxSet := true, MaxExclusive := false }

/-- Modelled from the spec: the setter `SetExclusiveMaximum`, missing from the
sources. -/
def Decimal.SetExclusiveMaximum (d : Decimal) (v : ℚ) : Decimal :=
  { d with Max := v, MaxSet := true, MaxExclusive := true }

/-- Modelled from the spec: the setter `SetMinimum`, missing from the sources. -/
def Decimal.SetMinimum (d : Decimal) (v : ℚ) : Decimal :=
  { d with Min := v, MinSet := true, MinExclusive := false }

/-- Modelled from the spec: the setter `SetExclusiveMinimum`, missing from the
sources. -/
def Decimal.SetExclusiveMinimum (d : Decimal) (v : ℚ) : Decimal :=
  { d with Min := v, MinSet := true, MinExclusive := true }

/-- Modelled from the spec: the setter `SetMultipleOf`, missing from the
sources. -/
def Decimal.SetMultipleOf (d : Decimal) (v : ℚ) : Decimal :=
  { d with MultipleOf := v, MultipleOfSet := true }

/-- A validator whose bounds and exclusive flags are filled in while none of
the three constraints is configured. -/
def unconfiguredDecimal : Decimal :=
  { Max := 5, MaxExclusive := true, Min := 7, MinExclusive := true, MultipleOf := 3 }

/-! # Lemmas and theorems -/

/-! ## Sequencing lemmas -/

theorem Run.andThen_ok {σ : Type} (r : Run σ) (k : σ → Run σ)
    (h : r.outcome = .returned none) :
    r.andThen k = ⟨(k r.state).outcome, r.calls ++ (k r.state).calls, (k r.state).state⟩ := by
  simp [Run.andThen, h]

theorem Run.andThen_stop {σ : Type} (r : Run σ) (k : σ → Run σ)
    (h : r.outcome ≠ .returned none) : r.andThen k = r := by
  unfold Run.andThen
  split
  · contradiction
  · rfl

theorem Run.skip_andThen {σ : Type} (st : σ) (k : σ → Run σ) :
    (Run.skip st).andThen k = k st := by
  simp [Run.andThen, Run.skip]

theorem Run.andThen_skip {σ : Type} (r : Run σ) : r.andThen Run.skip = r := by
  by_cases h : r.outcome = .returned none
  · rw [Run.andThen_ok r _ h]
    cases r
    simp_all [Run.skip]
  · exact Run.andThen_stop r _ h

theorem Run.andThen_assoc {σ : Type} (r : Run σ) (k k2 : σ → Run σ) :
    (r.andThen k).andThen k2 = r.andThen fun st => (k st).andThen k2 := by
  by_cases h : r.outcome = .returned none
  · rw [Run.andThen_ok r k h, Run.andThen_ok r _ h]
    by_cases h2 : (k r.state).outcome = .returned none
    · rw [Run.andThen_ok _ k2 h2, Run.andThen_ok _ k2 (by simpa using h2)]
      simp
    · rw [Run.andThen_stop _ k2 h2, Run.andThen_stop _ k2 (by simpa using h2)]
  · rw [Run.andThen_stop r k h, Run.andThen_stop r k2 h, Run.andThen_stop r _ h]

theorem forEach_append {α σ : Type} (body : α → σ → Run σ) (xs ys : List α) :
    forEach body (xs ++ ys) = fun st => (forEach body xs st).andThen (forEach body ys) := by
  funext st
  induction xs generalizing st with
  | nil => simp [forEach, Run.skip_andThen]
  | cons x xs ih =>
    simp only [List.cons_append, forEach]
    rw [Run.andThen_assoc]
    congr 1
    funext st2
    exact ih st2

theorem forEach_map {α β σ : Type} (body : β → σ → Run σ) (f : α → β) (xs : List α) :
    forEach body (xs.map f) = forEach (fun x => body (f x)) xs := by
  funext st
  induction xs generalizing st with
  | nil => rfl
  | cons x xs ih =>
    simp only [List.map_cons, forEach]
    congr 1
    funext st2
    exact ih st2

theorem forEach_flatMap {α β σ : Type} (body : β → σ → Run σ) (f : α → List β) (xs : List α) :
    forEach body (xs.flatMap f) = forEach (fun x => forEach body (f x)) xs := by
  funext st
  induction xs generalizing st with
  | nil => rfl
  | cons x xs ih =>
    simp only [List.flatMap_cons, forEach, forEach_append]
    congr 1
    funext st2
    exact ih st2

/-! ## The walk as one loop over the roots -/

theorem walkRoot_some {σ : Type} (doFn : ProcessSchema σ) (fix : FixSchema σ) (fuel : Nat)
    (p : Option Schema) : walkRoot doFn fix fuel (some p) = walkSchema doFn fix fuel "" p := by
  funext st
  rfl

theorem forEach_walkRoot_some {σ : Type} (doFn : ProcessSchema σ) (fix : FixSchema σ)
    (fuel : Nat) (l : List (Option Schema)) :
    forEach (walkRoot doFn fix fuel) (l.map some) =
      forEach (walkSchema doFn fix fuel "") l := by
  rw [forEach_map]
  rfl

theorem walkAllSchemasInParameters_eq {σ : Type} (doFn : ProcessSchema σ) (fix : FixSchema σ)
    (fuel : Nat) (ps : List (Option Parameter)) :
    walkAllSchemasInParameters doFn fix fuel ps =
      forEach (walkRoot doFn fix fuel) (paramsRoots ps) := by
  funext st
  unfold walkAllSchemasInParameters paramsRoots
  rw [forEach_flatMap]
  congr 1
  funext p st2
  cases p with
  | none => rfl
  | some p =>
    simp only [parameterRoots, forEach_walkRoot_some, Parameter.roots, forEach, forEach_map]
    rfl

theorem walkAllSchemasInOperation_eq {σ : Type} (doFn : ProcessSchema σ) (fix : FixSchema σ)
    (fuel : Nat) (op : Option Operation) :
    walkAllSchemasInOperation doFn fix fuel op =
      forEach (walkRoot doFn fix fuel) (operationRoots op) := by
  funext st
  cases op with
  | none => rfl
  | some op =>
    simp only [walkAllSchemasInOperation, operationRoots, forEach_append, forEach_flatMap,
      walkAllSchemasInParameters_eq, contentRoots, forEach_walkRoot_some, forEach_map]
    congr 1
    funext st2
    congr 1
    cases op.RequestBody with
    | none => rfl
    | some body => simp only [forEach_walkRoot_some, forEach_map, walkRoot_some]

theorem WalkAllSchemas_eq {σ : Type} (fuel : Nat) (spec : Spec) (doFn : ProcessSchema σ)
    (fix : Option (FixSchema σ)) (st : σ) :
    WalkAllSchemas fuel spec (some doFn) fix st =
      forEach (walkRoot doFn (fixOrDefault fix) fuel) spec.roots st := by
  have hop : walkAllSchemasInOperation doFn (fixOrDefault fix) fuel =
      fun op => forEach (walkRoot doFn (fixOrDefault fix) fuel) (operationRoots op) := by
    funext op
    exact walkAllSchemasInOperation_eq doFn _ fuel op
  have hschemas : (spec.Components.Schemas.map fun s => some s.2) =
      (spec.Components.Schemas.map Prod.snd).map some := by
    rw [List.map_map]
    rfl
  simp only [WalkAllSchemas, Spec.roots, forEach_append, forEach_flatMap, PathItem.roots,
    walkAllSchemasInParameters_eq, hschemas, forEach_walkRoot_some, forEach_map,
    PathItem.slots, hop, walkRoot_some]

theorem mem_paramsRoots_isSome (ps : List (Option Parameter)) (h : noNilIn ps = true)
    (r : Option (Option Schema)) (hr : r ∈ paramsRoots ps) : r.isSome = true := by
  unfold paramsRoots at hr
  obtain ⟨p, hp, hrp⟩ := List.mem_flatMap.mp hr
  have hsome := List.all_eq_true.mp h p hp
  cases p with
  | none => cases hsome
  | some p =>
    obtain ⟨x, -, hx⟩ := List.mem_map.mp hrp
    rw [← hx]
    rfl

theorem mem_operationRoots_isSome (op : Option Operation) (h : operationNoNil op = true)
    (r : Option (Option Schema)) (hr : r ∈ operationRoots op) : r.isSome = true := by
  cases op with
  | none => cases hr
  | some op =>
    rw [operationRoots] at hr
    rcases List.mem_append.mp hr with hr | hr
    · exact mem_paramsRoots_isSome op.Parameters h r hr
    rcases List.mem_append.mp hr with hr | hr
    · cases hb : op.RequestBody with
      | none => rw [hb] at hr; cases hr
      | some body =>
        rw [hb] at hr
        obtain ⟨x, -, hx⟩ := List.mem_map.mp hr
        rw [← hx]
        rfl
    · obtain ⟨resp, -, hresp⟩ := List.mem_flatMap.mp hr
      obtain ⟨x, -, hx⟩ := List.mem_map.mp hresp
      rw [← hx]
      rfl

theorem mem_roots_isSome (spec : Spec) (h : spec.noNilParameter = true)
    (r : Option (Option Schema)) (hr : r ∈ spec.roots) : r.isSome = true := by
  unfold Spec.noNilParameter at h
  simp only [Bool.and_eq_true] at h
  obtain ⟨hpaths, hcomp⟩ := h
  unfold Spec.roots at hr
  rcases List.mem_append.mp hr with hr | hr
  · obtain ⟨item, hitem, hri⟩ := List.mem_flatMap.mp hr
    have hi := List.all_eq_true.mp hpaths item hitem
    simp only [Bool.and_eq_true] at hi
    unfold PathItem.roots at hri
    rcases List.mem_append.mp hri with hri | hri
    · exact mem_paramsRoots_isSome _ hi.1 r hri
    · obtain ⟨op, hop, hro⟩ := List.mem_flatMap.mp hri
      exact mem_operationRoots_isSome op (List.all_eq_true.mp hi.2 op hop) r hro
  rcases List.mem_append.mp hr with hr | hr
  · exact mem_paramsRoots_isSome _ hcomp r hr
  · obtain ⟨x, -, hx⟩ := List.mem_map.mp hr
    rw [← hx]
    rfl

theorem map_some_filterMap (l : List (Option (Option Schema)))
    (h : ∀ r ∈ l, r.isSome = true) : (l.filterMap fun r => r).map some = l := by
  induction l with
  | nil => rfl
  | cons r rs ih =>
    have hr := h r (List.mem_cons_self _ _)
    cases r with
    | none => cases hr
    | some x =>
      simp only [List.filterMap_cons, List.map_cons]
      rw [ih (fun y hy => h y (List.mem_cons_of_mem _ hy))]

theorem WalkAllSchemas_eq_of_noNil {σ : Type} (fuel : Nat) (spec : Spec)
    (doFn : ProcessSchema σ) (fix : Option (FixSchema σ)) (st : σ)
    (h : spec.noNilParameter = true) :
    WalkAllSchemas fuel spec (some doFn) fix st =
      forEach (walkSchema doFn (fixOrDefault fix) fuel "") spec.schemaRoots st := by
  rw [WalkAllSchemas_eq, ← forEach_walkRoot_some, Spec.schemaRoots,
    map_some_filterMap spec.roots (mem_roots_isSome spec h)]

/-! ## Invariants of the callback log -/

theorem Run.andThen_calls_forall {σ : Type} (P : Call → Prop) (r : Run σ) (k : σ → Run σ)
    (hr : ∀ c ∈ r.calls, P c) (hk : ∀ st, ∀ c ∈ (k st).calls, P c) :
    ∀ c ∈ (r.andThen k).calls, P c := by
  by_cases h : r.outcome = .returned none
  · rw [Run.andThen_ok r k h]
    intro c hc
    rcases List.mem_append.mp hc with hc | hc
    · exact hr c hc
    · exact hk _ c hc
  · rw [Run.andThen_stop r k h]
    exact hr

theorem forEach_calls_forall {α σ : Type} (P : Call → Prop) (body : α → σ → Run σ)
    (xs : List α) (h : ∀ x ∈ xs, ∀ st, ∀ c ∈ (body x st).calls, P c) (st : σ) :
    ∀ c ∈ (forEach body xs st).calls, P c := by
  induction xs generalizing st with
  | nil => intro c hc; simp [forEach, Run.skip] at hc
  | cons x xs ih =>
    rw [forEach]
    apply Run.andThen_calls_forall
    · exact h x (List.mem_cons_self _ _) st
    · intro st2
      exact ih (fun y hy => h y (List.mem_cons_of_mem _ hy)) st2

theorem Run.andThen_calls_forall_ok {σ : Type} (P : Call → Prop) (r : Run σ)
    (k : σ → Run σ) (hr : ∀ c ∈ r.calls, P c)
    (hk : r.outcome = .returned none → ∀ c ∈ (k r.state).calls, P c) :
    ∀ c ∈ (r.andThen k).calls, P c := by
  by_cases h : r.outcome = .returned none
  · rw [Run.andThen_ok r k h]
    intro c hc
    rcases List.mem_append.mp hc with hc | hc
    · exact hr c hc
    · exact hk h c hc
  · rw [Run.andThen_stop r k h]
    exact hr

theorem walkSchema_calls_ok {σ : Type} (doFn : ProcessSchema σ) (fix : FixSchema σ)
    (fuel : Nat) : ∀ (name : String) (root : Option Schema) (st : σ),
    ∀ c ∈ (walkSchema doFn fix fuel name root st).calls, Call.ok doFn fix c := by
  induction fuel with
  | zero => intro name root st c hc; simp [walkSchema] at hc
  | succ fuel ih =>
    intro name root st
    have hlist : ∀ (l : List (Option Schema)) (st : σ),
        ∀ c ∈ (forEach (walkSchema doFn fix fuel "") l st).calls, Call.ok doFn fix c := by
      intro l st
      apply forEach_calls_forall
      intro x _ st2 c hc
      exact ih "" x st2 c hc
    cases root with
    | none => intro c hc; simp [walkSchema, Run.skip] at hc
    | some s =>
      rw [walkSchema]
      split
      · intro c hc; simp [Run.skip] at hc
      · rename_i href
        have href : s.Ref = "" := by simpa using href
        apply Run.andThen_calls_forall _ _ _ (hlist _ _)
        intro st1
        apply Run.andThen_calls_forall _ _ _ (hlist _ _)
        intro st2
        split
        · apply forEach_calls_forall
          intro p _ st3 c hc
          exact ih p.Name p.Schema st3 c hc
        · rename_i hobj
          split
          · rename_i harr
            have hitems : ∀ (s2 : Schema) (st : σ), ∀ c ∈ (match s2.Items with
                | none => (⟨.panicked, [], st⟩ : Run σ)
                | some items =>
                  (walkSchema doFn fix fuel "" items.Item st).andThen fun st =>
                    forEach (walkSchema doFn fix fuel "") items.Items st).calls,
                Call.ok doFn fix c := by
              intro s2 st
              cases s2.Items with
              | none => intro c hc; simp at hc
              | some items =>
                simp only
                apply Run.andThen_calls_forall
                · intro c hc
                  exact ih "" _ _ c hc
                · intro st4
                  exact hlist _ _
            cases hI : s.Items with
            | some items =>
              simp only [Run.skip_andThen]
              exact hitems s st2
            | none =>
              simp only
              apply Run.andThen_calls_forall
              · intro c hc
                simp only [List.mem_singleton] at hc
                subst hc
                exact ⟨rfl, href, harr, hI, ⟨st2, rfl⟩⟩
              · intro st3
                exact hitems _ st3
          · rename_i harr
            intro c hc
            simp only [List.mem_singleton] at hc
            subst hc
            exact ⟨href, hobj, harr, ⟨st2, rfl⟩⟩

theorem Call.entered_of_allOf {σ : Type} (fix : FixSchema σ) (name : String) (r : Schema)
    (x : Option Schema) (c : Call) (href : r.Ref = "") (hx : x ∈ r.AllOf)
    (h : Call.entered fix "" x c) : Call.entered fix name (some r) c := by
  cases c with
  | process s ret => trivial
  | repair e n s ret => exact Entered.allOf name r x n s href hx h

theorem Call.entered_of_oneOf {σ : Type} (fix : FixSchema σ) (name : String) (r : Schema)
    (x : Option Schema) (c : Call) (href : r.Ref = "") (hx : x ∈ r.OneOf)
    (h : Call.entered fix "" x c) : Call.entered fix name (some r) c := by
  cases c with
  | process s ret => trivial
  | repair e n s ret => exact Entered.oneOf name r x n s href hx h

theorem Call.entered_of_property {σ : Type} (fix : FixSchema σ) (name : String)
    (r : Schema) (p : Property) (c : Call) (href : r.Ref = "") (hty : r.Type_ = "object")
    (hp : p ∈ r.Properties) (h : Call.entered fix p.Name p.Schema c) :
    Call.entered fix name (some r) c := by
  cases c with
  | process s ret => trivial
  | repair e n s ret => exact Entered.property name r p n s href hty hp h

theorem Call.entered_of_item {σ : Type} (fix : FixSchema σ) (name : String) (r : Schema)
    (d : Items) (x : Option Schema) (c : Call) (href : r.Ref = "") (hty : r.Type_ = "array")
    (hd : r.Items = some d) (hx : x = d.Item ∨ x ∈ d.Items)
    (h : Call.entered fix "" x c) : Call.entered fix name (some r) c := by
  cases c with
  | process s ret => trivial
  | repair e n s ret => exact Entered.item name r d x n s href hty hd hx h

theorem Call.entered_of_installed {σ : Type} (fix : FixSchema σ) (name : String)
    (r : Schema) (st : σ) (d : Items) (x : Option Schema) (c : Call) (href : r.Ref = "")
    (hty : r.Type_ = "array") (hd : r.Items = none)
    (hret : (fix .ErrMissingItemsInArray name r st).1 = none)
    (hinst : (fix .ErrMissingItemsInArray name r st).2.1.Items = some d)
    (hx : x = d.Item ∨ x ∈ d.Items) (h : Call.entered fix "" x c) :
    Call.entered fix name (some r) c := by
  cases c with
  | process s ret => trivial
  | repair e n s ret => exact Entered.installed name r st d x n s href hty hd hret hinst hx h

theorem walkSchema_calls_entered {σ : Type} (doFn : ProcessSchema σ) (fix : FixSchema σ)
    (fuel : Nat) : ∀ (name : String) (root : Option Schema) (st : σ),
    ∀ c ∈ (walkSchema doFn fix fuel name root st).calls, Call.entered fix name root c := by
  induction fuel with
  | zero => intro name root st c hc; simp [walkSchema] at hc
  | succ fuel ih =>
    intro name root st
    cases root with
    | none => intro c hc; simp [walkSchema, Run.skip] at hc
    | some s =>
      rw [walkSchema]
      split
      · intro c hc; simp [Run.skip] at hc
      · rename_i href
        have href : s.Ref = "" := by simpa using href
        have hitems : ∀ (d : Items) (st : σ),
            (∀ (x : Option Schema) (c : Call), (x = d.Item ∨ x ∈ d.Items) →
              Call.entered fix "" x c → Call.entered fix name (some s) c) →
            ∀ c ∈ ((walkSchema doFn fix fuel "" d.Item st).andThen fun st =>
              forEach (walkSchema doFn fix fuel "") d.Items st).calls,
              Call.entered fix name (some s) c := by
          intro d st hlift
          apply Run.andThen_calls_forall
          · intro c hc
            exact hlift d.Item c (Or.inl rfl) (ih "" _ _ c hc)
          · intro st4
            apply forEach_calls_forall
            intro x hx st5 c hc
            exact hlift x c (Or.inr hx) (ih "" x st5 c hc)
        apply Run.andThen_calls_forall
        · apply forEach_calls_forall
          intro x hx st2 c hc
          exact Call.entered_of_allOf fix name s x c href hx (ih "" x st2 c hc)
        intro st1
        apply Run.andThen_calls_forall
        · apply forEach_calls_forall
          intro x hx st2 c hc
          exact Call.entered_of_oneOf fix name s x c href hx (ih "" x st2 c hc)
        intro st2
        split
        · rename_i hobj
          apply forEach_calls_forall
          intro p hp st3 c hc
          exact Call.entered_of_property fix name s p c href hobj hp
            (ih p.Name p.Schema st3 c hc)
        · split
          · rename_i harr
            cases hI : s.Items with
            | some items =>
              simp only [Run.skip_andThen, hI]
              exact hitems items st2
                (fun x c hx h => Call.entered_of_item fix name s items x c href harr hI hx h)
            | none =>
              simp only
              apply Run.andThen_calls_forall_ok
              · intro c hc
                simp only [List.mem_singleton] at hc
                subst hc
                exact Entered.self name s href
              · intro hret
                have hret : (fix .ErrMissingItemsInArray name s st2).1 = none := by
                  simpa using hret
                cases hinst : (fix .ErrMissingItemsInArray name s st2).2.1.Items with
                | none => intro c hc; simp at hc
                | some d =>
                  simp only
                  exact hitems d _
                    (fun x c hx h => Call.entered_of_installed fix name s st2 d x c href harr
                      hI hret hinst hx h)
          · intro c hc
            simp only [List.mem_singleton] at hc
            subst hc
            trivial

/-! ## Fail-fast runs -/

theorem Run.failFast_quiet {σ : Type} (o : Outcome) (st : σ)
    (ho : ∀ e, o ≠ .returned (some e)) : Run.failFast ⟨o, [], st⟩ := by
  constructor
  · intro e he
    exact absurd he (ho e)
  · intro _ c hc
    simp at hc

theorem Run.failFast_single {σ : Type} (c : Call) (st : σ) :
    Run.failFast ⟨.returned c.ret, [c], st⟩ := by
  constructor
  · intro e he
    refine ⟨[], c, rfl, ?_, ?_⟩
    · simpa using he
    · intro c2 hc2
      simp at hc2
  · intro h c2 hc2
    simp only [List.mem_singleton] at hc2
    subst hc2
    cases hr : c2.ret with
    | none => rfl
    | some e => exact absurd (by simp [hr]) (h e)

theorem Run.failFast_andThen {σ : Type} (r : Run σ) (k : σ → Run σ) (hr : r.failFast)
    (hk : ∀ st, (k st).failFast) : (r.andThen k).failFast := by
  by_cases h : r.outcome = .returned none
  · rw [Run.andThen_ok r k h]
    have hquiet : ∀ c ∈ r.calls, c.ret = none := hr.2 (by simp [h])
    constructor
    · intro e he
      obtain ⟨init, c, h1, h2, h3⟩ := (hk r.state).1 e he
      refine ⟨r.calls ++ init, c, ?_, h2, ?_⟩
      · simp [h1]
      · intro c2 hc2
        rcases List.mem_append.mp hc2 with hc2 | hc2
        · exact hquiet c2 hc2
        · exact h3 c2 hc2
    · intro hne c hc
      rcases List.mem_append.mp hc with hc | hc
      · exact hquiet c hc
      · exact (hk r.state).2 hne c hc
  · rw [Run.andThen_stop r k h]
    exact hr

theorem forEach_failFast {α σ : Type} (body : α → σ → Run σ) (xs : List α)
    (h : ∀ x ∈ xs, ∀ st, (body x st).failFast) (st : σ) : (forEach body xs st).failFast := by
  induction xs generalizing st with
  | nil => exact Run.failFast_quiet _ _ (by simp)
  | cons x xs ih =>
    rw [forEach]
    apply Run.failFast_andThen
    · exact h x (List.mem_cons_self _ _) st
    · intro st2
      exact ih (fun y hy => h y (List.mem_cons_of_mem _ hy)) st2

theorem walkSchema_failFast {σ : Type} (doFn : ProcessSchema σ) (fix : FixSchema σ)
    (fuel : Nat) : ∀ (name : String) (root : Option Schema) (st : σ),
    (walkSchema doFn fix fuel name root st).failFast := by
  induction fuel with
  | zero =>
    intro name root st
    exact Run.failFast_quiet _ _ (by simp)
  | succ fuel ih =>
    intro name root st
    have hlist : ∀ (l : List (Option Schema)) (st : σ),
        (forEach (walkSchema doFn fix fuel "") l st).failFast :=
      fun l st => forEach_failFast _ l (fun x _ st2 => ih "" x st2) st
    cases root with
    | none => exact Run.failFast_quiet _ _ (by simp)
    | some s =>
      rw [walkSchema]
      split
      · exact Run.failFast_quiet _ _ (by simp)
      · apply Run.failFast_andThen _ _ (hlist _ _)
        intro st1
        apply Run.failFast_andThen _ _ (hlist _ _)
        intro st2
        split
        · exact forEach_failFast _ _ (fun p _ st3 => ih p.Name p.Schema st3) st2
        · split
          · have hitems : ∀ (s2 : Schema) (st : σ), (match s2.Items with
                | none => (⟨.panicked, [], st⟩ : Run σ)
                | some items =>
                  (walkSchema doFn fix fuel "" items.Item st).andThen fun st =>
                    forEach (walkSchema doFn fix fuel "") items.Items st).failFast := by
              intro s2 st
              cases s2.Items with
              | none => exact Run.failFast_quiet _ _ (by simp)
              | some items =>
                exact Run.failFast_andThen _ _ (ih "" _ _) (fun st4 => hlist _ st4)
            cases hI : s.Items with
            | some items =>
              simp only [Run.skip_andThen]
              exact hitems s st2
            | none =>
              simp only
              apply Run.failFast_andThen
              · exact Run.failFast_single
                  (.repair .ErrMissingItemsInArray name s
                    (fix .ErrMissingItemsInArray name s st2).1) _
              · intro st3
                exact hitems _ st3
          · exact Run.failFast_single (.process s (doFn s st2).1) _

theorem walkRoot_failFast {σ : Type} (doFn : ProcessSchema σ) (fix : FixSchema σ)
    (fuel : Nat) (r : Option (Option Schema)) (st : σ) :
    (walkRoot doFn fix fuel r st).failFast := by
  cases r with
  | none => exact Run.failFast_quiet _ _ (by simp)
  | some p => exact walkSchema_failFast doFn fix fuel "" p st

theorem WalkAllSchemas_failFast {σ : Type} (fuel : Nat) (spec : Spec) (doFn : ProcessSchema σ)
    (fix : Option (FixSchema σ)) (st : σ) :
    (WalkAllSchemas fuel spec (some doFn) fix st).failFast := by
  rw [WalkAllSchemas_eq]
  exact forEach_failFast _ _ (fun x _ st2 => walkRoot_failFast doFn _ fuel x st2) st

theorem WalkAllSchemas_calls_ok {σ : Type} (fuel : Nat) (spec : Spec) (doFn : ProcessSchema σ)
    (fix : Option (FixSchema σ)) (st : σ) :
    ∀ c ∈ (WalkAllSchemas fuel spec (some doFn) fix st).calls,
      Call.ok doFn (fixOrDefault fix) c := by
  rw [WalkAllSchemas_eq]
  apply forEach_calls_forall
  intro x _ st2 c hc
  cases x with
  | none => cases hc
  | some p => exact walkSchema_calls_ok doFn _ fuel "" p st2 c hc

theorem WalkAllSchemas_calls_entered {σ : Type} (fuel : Nat) (spec : Spec)
    (doFn : ProcessSchema σ) (fix : Option (FixSchema σ)) (st : σ) :
    ∀ c ∈ (WalkAllSchemas fuel spec (some doFn) fix st).calls,
      Call.enteredFrom (fixOrDefault fix) spec.schemaRoots c := by
  rw [WalkAllSchemas_eq]
  apply forEach_calls_forall
  intro x hx st2 c hc
  cases x with
  | none => cases hc
  | some p =>
    have h := walkSchema_calls_entered doFn (fixOrDefault fix) fuel "" p st2 c hc
    have hp : p ∈ spec.schemaRoots := List.mem_filterMap.mpr ⟨some p, hx, rfl⟩
    cases c with
    | process s ret => trivial
    | repair e n s ret => exact ⟨p, hp, h⟩

theorem Run.failFast_stops {σ : Type} (r : Run σ) (h : r.failFast) (c : Call) (e : GoError)
    (hc : c ∈ r.calls) (he : c.ret = some e) :
    r.outcome = .returned (some e) ∧
      ∃ init, r.calls = init ++ [c] ∧ ∀ c2 ∈ init, c2.ret = none := by
  by_cases hq : ∀ e2, r.outcome ≠ .returned (some e2)
  · have := h.2 hq c hc
    rw [he] at this
    cases this
  · push_neg at hq
    obtain ⟨e2, he2⟩ := hq
    obtain ⟨init, c0, h1, h2, h3⟩ := h.1 e2 he2
    rw [h1] at hc
    rcases List.mem_append.mp hc with hc | hc
    · have := h3 c hc
      rw [he] at this
      cases this
    · simp only [List.mem_singleton] at hc
      subst hc
      rw [he] at h2
      cases h2
      exact ⟨he2, init, h1, h3⟩

/-! ## The claims about callbacks, references and errors -/

theorem WalkAllSchemas_stops_at_error {σ : Type} (fuel : Nat) (spec : Spec)
    (doFn : Option (ProcessSchema σ)) (fix : Option (FixSchema σ)) (st : σ) (c : Call)
    (e : GoError) (hc : c ∈ (WalkAllSchemas fuel spec doFn fix st).calls)
    (he : c.ret = some e) :
    (WalkAllSchemas fuel spec doFn fix st).outcome = .returned (some e) ∧
      ∃ init, (WalkAllSchemas fuel spec doFn fix st).calls = init ++ [c] ∧
        ∀ c2 ∈ init, c2.ret = none := by
  cases doFn with
  | none => simp [WalkAllSchemas] at hc
  | some doFn =>
    exact Run.failFast_stops _ (WalkAllSchemas_failFast fuel spec doFn fix st) c e hc he

/-- C3: when the walk reaches a defective array (the log holds a repair call)
and that repair call returns a non-nil error `e`, `WalkAllSchemas` returns
exactly `e`, the repair call is the last entry of the log, and every earlier
call returned nil. -/
theorem repair_error_aborts_walk {σ : Type} (fuel : Nat) (spec : Spec)
    (doFn : Option (ProcessSchema σ)) (fix : Option (FixSchema σ)) (st : σ)
    (err : GoError) (name : String) (s : Schema) (e : GoError)
    (h : Call.repair err name s (some e) ∈ (WalkAllSchemas fuel spec doFn fix st).calls) :
    (WalkAllSchemas fuel spec doFn fix st).outcome = .returned (some e) ∧
      ∃ init, (WalkAllSchemas fuel spec doFn fix st).calls =
          init ++ [Call.repair err name s (some e)] ∧
        ∀ c ∈ init, c.ret = none :=
  WalkAllSchemas_stops_at_error fuel spec doFn fix st _ e h rfl

theorem repair_error_aborts_walk_witness :
    Call.repair .ErrMissingItemsInArray "" bareArray (some (.custom 7)) ∈
        (WalkAllSchemas 5 specArrayThenString (some acceptAll) (some (refuse (.custom 7)))
          ()).calls ∧
      ((WalkAllSchemas 5 specArrayThenString (some acceptAll) (some (refuse (.custom 7)))
          ()).outcome = .returned (some (.custom 7)) ∧
        ∃ init, (WalkAllSchemas 5 specArrayThenString (some acceptAll)
            (some (refuse (.custom 7))) ()).calls =
            init ++ [Call.repair .ErrMissingItemsInArray "" bareArray (some (.custom 7))] ∧
          ∀ c ∈ init, c.ret = none) :=
  have h : Call.repair .ErrMissingItemsInArray "" bareArray (some (.custom 7)) ∈
      (WalkAllSchemas 5 specArrayThenString (some acceptAll) (some (refuse (.custom 7)))
        ()).calls := List.mem_singleton.mpr rfl
  ⟨h, repair_error_aborts_walk 5 specArrayThenString (some acceptAll)
    (some (refuse (.custom 7))) () _ _ _ _ h⟩

/-- C4: every schema that `WalkAllSchemas` passes to `process` has an empty
`Ref` and a `Type` that is neither `object` nor `array`, whatever the spec and
the callbacks. -/
theorem process_gets_only_primitive_non_ref {σ : Type} (fuel : Nat) (spec : Spec)
    (doFn : Option (ProcessSchema σ)) (fix : Option (FixSchema σ)) (st : σ)
    (s : Schema) (r : Option GoError)
    (h : Call.process s r ∈ (WalkAllSchemas fuel spec doFn fix st).calls) :
    s.Ref = "" ∧ s.Type_ ≠ "object" ∧ s.Type_ ≠ "array" := by
  cases doFn with
  | none => simp [WalkAllSchemas] at h
  | some doFn =>
    obtain ⟨h1, h2, h3, -⟩ := WalkAllSchemas_calls_ok fuel spec doFn fix st _ h
    exact ⟨h1, h2, h3⟩

theorem process_gets_only_primitive_non_ref_witness :
    Call.process (schemaOfType "string") none ∈
        (WalkAllSchemas 5 specTwoStrings (some acceptAll) (some tolerate) ()).calls ∧
      ((schemaOfType "string").Ref = "" ∧ (schemaOfType "string").Type_ ≠ "object" ∧
        (schemaOfType "string").Type_ ≠ "array") :=
  have h : Call.process (schemaOfType "string") none ∈
      (WalkAllSchemas 5 specTwoStrings (some acceptAll) (some tolerate) ()).calls :=
    List.mem_cons_self _ _
  ⟨h, process_gets_only_primitive_non_ref 5 specTwoStrings (some acceptAll) (some tolerate)
    () _ _ h⟩

/-- C5: `walkSchema` applied to a nil schema or to a schema with a non-empty
`Ref` returns nil and calls neither callback, whatever the contextual name, the
node's `Type` and the children it carries. -/
theorem walkSchema_nil_or_ref {σ : Type} (doFn : ProcessSchema σ) (fix : FixSchema σ)
    (fuel : Nat) (name : String) (schema : Option Schema) (st : σ)
    (h : schema = none ∨ ∃ s, schema = some s ∧ s.Ref ≠ "") :
    walkSchema doFn fix (fuel + 1) name schema st = ⟨.returned none, [], st⟩ := by
  rcases h with h | ⟨s, h, href⟩
  · subst h
    rfl
  · subst h
    rw [walkSchema]
    simp [href, Run.skip]

theorem walkSchema_nil_or_ref_witness :
    (some refArray = none ∨ ∃ s, some refArray = some s ∧ s.Ref ≠ "") ∧
      walkSchema acceptAll (refuse (.custom 1)) (0 + 1) "p" (some refArray) () =
        ⟨.returned none, [], ()⟩ :=
  have h : some refArray = none ∨ ∃ s, some refArray = some s ∧ s.Ref ≠ "" :=
    Or.inr ⟨refArray, rfl, by decide⟩
  ⟨h, walkSchema_nil_or_ref acceptAll (refuse (.custom 1)) 0 "p" (some refArray) () h⟩

/-- C6: with a nil `process` function `WalkAllSchemas` returns a non-nil error
and calls nothing, for every spec, every repair function (nil or not) and
before any traversal step (no recursion budget is needed). -/
theorem nil_process_fails_before_traversal {σ : Type} (fuel : Nat) (spec : Spec)
    (fix : Option (FixSchema σ)) (st : σ) :
    (∃ e, (WalkAllSchemas fuel spec none fix st).outcome = .returned (some e)) ∧
      (WalkAllSchemas fuel spec none fix st).calls = [] ∧
      (WalkAllSchemas fuel spec none fix st).state = st :=
  ⟨⟨.doFunctionIsNil, rfl⟩, rfl, rfl⟩

/-- C8: a nil repair function is replaced by the pass-through that returns the
error it receives, and with it a walk that reaches a defective array (the log
holds a repair call) returns `ErrMissingItemsInArray`, that repair call being
the last entry of the log. -/
theorem nil_fix_returns_missing_items {σ : Type} (fuel : Nat) (spec : Spec)
    (doFn : Option (ProcessSchema σ)) (st : σ) (err : GoError) (name : String)
    (s : Schema) (r : Option GoError)
    (h : Call.repair err name s r ∈ (WalkAllSchemas fuel spec doFn none st).calls) :
    (∀ (e : GoError) (n : String) (s2 : Schema) (st2 : σ),
        fixOrDefault (none : Option (FixSchema σ)) e n s2 st2 = (some e, s2, st2)) ∧
      (WalkAllSchemas fuel spec doFn none st).outcome =
        .returned (some .ErrMissingItemsInArray) ∧
      ∃ init, (WalkAllSchemas fuel spec doFn none st).calls =
          init ++ [Call.repair err name s r] ∧
        ∀ c ∈ init, c.ret = none := by
  refine ⟨fun _ _ _ _ => rfl, ?_⟩
  cases doFn with
  | none => simp [WalkAllSchemas] at h
  | some doFn =>
    obtain ⟨h1, -, -, -, ⟨st2, h5⟩⟩ := WalkAllSchemas_calls_ok fuel spec doFn none st _ h
    have hr : (Call.repair err name s r).ret = some .ErrMissingItemsInArray := by
      rw [← h5, h1]
      rfl
    exact WalkAllSchemas_stops_at_error fuel spec (some doFn) none st _ _ h hr

theorem nil_fix_returns_missing_items_witness :
    Call.repair .ErrMissingItemsInArray "" bareArray (some .ErrMissingItemsInArray) ∈
        (WalkAllSchemas 5 specArrayThenString (some acceptAll) none ()).calls ∧
      ((∀ (e : GoError) (n : String) (s2 : Schema) (st2 : Unit),
          fixOrDefault (none : Option (FixSchema Unit)) e n s2 st2 = (some e, s2, st2)) ∧
        (WalkAllSchemas 5 specArrayThenString (some acceptAll) none ()).outcome =
          .returned (some .ErrMissingItemsInArray) ∧
        ∃ init, (WalkAllSchemas 5 specArrayThenString (some acceptAll) none ()).calls =
            init ++ [Call.repair .ErrMissingItemsInArray "" bareArray
              (some .ErrMissingItemsInArray)] ∧
          ∀ c ∈ init, c.ret = none) :=
  have h : Call.repair .ErrMissingItemsInArray "" bareArray (some .ErrMissingItemsInArray) ∈
      (WalkAllSchemas 5 specArrayThenString (some acceptAll) none ()).calls :=
    List.mem_singleton.mpr rfl
  ⟨h, nil_fix_returns_missing_items 5 specArrayThenString (some acceptAll) () _ _ _ _ h⟩

/-! ## Walks in which every callback returns nil -/

theorem ref_mk (r t : String) (a o : List (Option Schema)) (p : List Property)
    (i : Option Items) : (Schema.mk r t a o p i).Ref = r := rfl

theorem type_mk (r t : String) (a o : List (Option Schema)) (p : List Property)
    (i : Option Items) : (Schema.mk r t a o p i).Type_ = t := rfl

theorem allOf_mk (r t : String) (a o : List (Option Schema)) (p : List Property)
    (i : Option Items) : (Schema.mk r t a o p i).AllOf = a := rfl

theorem oneOf_mk (r t : String) (a o : List (Option Schema)) (p : List Property)
    (i : Option Items) : (Schema.mk r t a o p i).OneOf = o := rfl

theorem properties_mk (r t : String) (a o : List (Option Schema)) (p : List Property)
    (i : Option Items) : (Schema.mk r t a o p i).Properties = p := rfl

theorem items_mk (r t : String) (a o : List (Option Schema)) (p : List Property)
    (i : Option Items) : (Schema.mk r t a o p i).Items = i := rfl

theorem Run.andThen_exact {σ : Type} (r : Run σ) (k : σ → Run σ) (A B : List Call)
    (hr : r.outcome = .returned none ∧ r.calls = A)
    (hk : ∀ st, (k st).outcome = .returned none ∧ (k st).calls = B) :
    (r.andThen k).outcome = .returned none ∧ (r.andThen k).calls = A ++ B := by
  rw [Run.andThen_ok r k hr.1]
  exact ⟨(hk _).1, by rw [hr.2, (hk _).2]⟩

theorem depthOpt_le_depthList (l : List (Option Schema)) (x : Option Schema) (h : x ∈ l) :
    depthOpt x ≤ depthList l := by
  induction l with
  | nil => cases h
  | cons y ys ih =>
    rw [depthList]
    rcases List.mem_cons.mp h with h | h
    · subst h
      exact Nat.le_max_left _ _
    · exact Nat.le_trans (ih h) (Nat.le_max_right _ _)

theorem walkSchema_exact {σ : Type} (doFn : ProcessSchema σ) (fix : FixSchema σ)
    (hdo : ∀ s st, (doFn s st).1 = none) (fuel : Nat) :
    ∀ (name : String) (root : Option Schema) (st : σ), depthOpt root < fuel →
      (∀ v ∈ reachableOpt name root, v.2.missingItems = true → installsEmpty fix v) →
      (walkSchema doFn fix fuel name root st).outcome = .returned none ∧
        (walkSchema doFn fix fuel name root st).calls =
          (reachableOpt name root).filterMap expectedCall := by
  induction fuel with
  | zero => intro name root st h; omega
  | succ fuel ih =>
    intro name root st hdepth hfix
    have hlist : ∀ (l : List (Option Schema)) (st : σ), depthList l < fuel →
        (∀ v ∈ reachableList l, v.2.missingItems = true → installsEmpty fix v) →
        (forEach (walkSchema doFn fix fuel "") l st).outcome = .returned none ∧
          (forEach (walkSchema doFn fix fuel "") l st).calls =
            (reachableList l).filterMap expectedCall := by
      intro l
      induction l with
      | nil => intro st _ _; exact ⟨rfl, rfl⟩
      | cons x xs ihl =>
        intro st hd hf
        rw [depthList] at hd
        rw [forEach, reachableList, List.filterMap_append]
        rw [reachableList] at hf
        apply Run.andThen_exact
        · exact ih "" x st (by omega) (fun v hv => hf v (List.mem_append_left _ hv))
        · intro st2
          exact ihl st2 (by omega) (fun v hv => hf v (List.mem_append_right _ hv))
    have hprops : ∀ (ps : List Property) (st : σ), depthProps ps < fuel →
        (∀ v ∈ reachableProps ps, v.2.missingItems = true → installsEmpty fix v) →
        (forEach (fun p : Property => walkSchema doFn fix fuel p.Name p.Schema) ps st).outcome =
            .returned none ∧
          (forEach (fun p : Property => walkSchema doFn fix fuel p.Name p.Schema) ps st).calls =
            (reachableProps ps).filterMap expectedCall := by
      intro ps
      induction ps with
      | nil => intro st _ _; exact ⟨rfl, rfl⟩
      | cons p ps ihp =>
        intro st hd hf
        cases p with
        | mk n s =>
          rw [depthProps] at hd
          rw [forEach, reachableProps, List.filterMap_append]
          rw [reachableProps] at hf
          apply Run.andThen_exact
          · exact ih n s st (by omega) (fun v hv => hf v (List.mem_append_left _ hv))
          · intro st2
            exact ihp st2 (by omega) (fun v hv => hf v (List.mem_append_right _ hv))
    cases root with
    | none => exact ⟨rfl, rfl⟩
    | some s =>
      cases s with
      | mk ref ty allOf oneOf props items =>
        rw [depthOpt, Schema.depth] at hdepth
        rw [reachableOpt, Schema.reachable] at hfix ⊢
        rw [walkSchema]
        simp only [ref_mk, type_mk, allOf_mk, oneOf_mk,
          properties_mk, items_mk]
        by_cases href : ref = ""
        · simp only [href, ne_eq, not_true_eq_false, ↓reduceIte] at hfix ⊢
          rw [List.filterMap_append, List.filterMap_append]
          apply Run.andThen_exact
          · exact hlist allOf st (by omega) (fun v hv => hfix v (List.mem_append_left _ hv))
          intro st1
          apply Run.andThen_exact
          · exact hlist oneOf st1 (by omega)
              (fun v hv => hfix v (List.mem_append_right _ (List.mem_append_left _ hv)))
          intro st2
          have hfix2 : ∀ v ∈ ((name, Schema.mk "" ty allOf oneOf props items) ::
              (if ty = "object" then reachableProps props
               else if ty = "array" then reachableItems items else [])),
              v.2.missingItems = true → installsEmpty fix v :=
            fun v hv => hfix v (List.mem_append_right _ (List.mem_append_right _ hv))
          by_cases hobj : ty = "object"
          · simp only [hobj, ↓reduceIte] at hfix2 ⊢
            rw [List.filterMap_cons]
            simp only [expectedCall, type_mk, ↓reduceIte]
            exact hprops props st2 (by omega) (fun v hv => hfix2 v (List.mem_cons_of_mem _ hv))
          · by_cases harr : ty = "array"
            · subst harr
              simp only [hobj, ↓reduceIte] at hfix2 ⊢
              cases items with
              | some d =>
                cases d with
                | mk item tuple =>
                  rw [depthItems] at hdepth
                  rw [reachableItems] at hfix2 ⊢
                  simp only [Run.skip_andThen, Items.Item, Items.Items]
                  rw [List.filterMap_cons]
                  simp only [expectedCall, type_mk, items_mk, ↓reduceIte, hobj]
                  rw [List.filterMap_append]
                  apply Run.andThen_exact
                  · exact ih "" item st2 (by omega)
                      (fun v hv => hfix2 v (List.mem_cons_of_mem _ (List.mem_append_left _ hv)))
                  · intro st3
                    exact hlist tuple st3 (by omega)
                      (fun v hv => hfix2 v (List.mem_cons_of_mem _ (List.mem_append_right _ hv)))
              | none =>
                have hinst := hfix2 _ (List.mem_cons_self _ _)
                  (by simp [Schema.missingItems, type_mk, items_mk]) st2
                simp only at hinst
                rw [List.filterMap_cons]
                simp only [expectedCall, type_mk, items_mk, ↓reduceIte, hobj,
                  reachableItems, List.filterMap_nil]
                rw [hinst.1, hinst.2]
                simp only [Items.Item, Items.Items, forEach]
                have := Run.andThen_exact
                  (⟨.returned none, [Call.repair GoError.ErrMissingItemsInArray name
                    (Schema.mk "" "array" allOf oneOf props none) none],
                    (fix GoError.ErrMissingItemsInArray name
                      (Schema.mk "" "array" allOf oneOf props none) st2).2.2⟩ : Run σ)
                  (fun st => (walkSchema doFn fix fuel "" none st).andThen Run.skip)
                  [Call.repair GoError.ErrMissingItemsInArray name
                    (Schema.mk "" "array" allOf oneOf props none) none] []
                  ⟨rfl, rfl⟩ (by
                    intro st3
                    show ((walkSchema doFn fix fuel "" none st3).andThen Run.skip).outcome = _ ∧
                      ((walkSchema doFn fix fuel "" none st3).andThen Run.skip).calls = _
                    rw [Run.andThen_skip]
                    have hpos : depthOpt none < fuel := by rw [depthOpt]; omega
                    have hnil := ih "" none st3 hpos (by intro v hv; cases hv)
                    simpa [reachableOpt] using hnil)
                simpa using this
            · simp only [hobj, harr, ↓reduceIte] at hfix2 ⊢
              rw [List.filterMap_cons]
              simp only [expectedCall, type_mk, ↓reduceIte, hobj, harr,
                List.filterMap_nil, hdo]
              exact ⟨trivial, trivial⟩
        · simp [href, Run.skip]

mutual
theorem Schema.all_reachable (p : Schema → Bool) (name : String) :
    ∀ (s : Schema), s.all p = true → ∀ v ∈ s.reachable name, p v.2 = true
  | .mk ref ty allOf oneOf props items => by
    intro h v hv
    rw [Schema.all] at h
    simp only [Bool.and_eq_true] at h
    obtain ⟨h0, h1, h2, h3, h4⟩ := h
    rw [Schema.reachable] at hv
    split at hv
    · cases hv
    · rcases List.mem_append.mp hv with hv | hv
      · exact allList_reachable p allOf h1 v hv
      rcases List.mem_append.mp hv with hv | hv
      · exact allList_reachable p oneOf h2 v hv
      rcases List.mem_cons.mp hv with hv | hv
      · subst hv
        exact h0
      split at hv
      · exact allProps_reachable p props h3 v hv
      · split at hv
        · exact allItems_reachable p items h4 v hv
        · cases hv
theorem allOpt_reachable (p : Schema → Bool) (name : String) :
    ∀ (o : Option Schema), allOpt p o = true → ∀ v ∈ reachableOpt name o, p v.2 = true
  | none => by intro _ v hv; cases hv
  | some s => by
    intro h v hv
    rw [allOpt] at h
    rw [reachableOpt] at hv
    exact Schema.all_reachable p name s h v hv
theorem allList_reachable (p : Schema → Bool) :
    ∀ (l : List (Option Schema)), allList p l = true → ∀ v ∈ reachableList l, p v.2 = true
  | [] => by intro _ v hv; cases hv
  | x :: xs => by
    intro h v hv
    rw [allList] at h
    simp only [Bool.and_eq_true] at h
    rw [reachableList] at hv
    rcases List.mem_append.mp hv with hv | hv
    · exact allOpt_reachable p "" x h.1 v hv
    · exact allList_reachable p xs h.2 v hv
theorem allProps_reachable (p : Schema → Bool) :
    ∀ (ps : List Property), allProps p ps = true → ∀ v ∈ reachableProps ps, p v.2 = true
  | [] => by intro _ v hv; cases hv
  | .mk n s :: ps => by
    intro h v hv
    rw [allProps] at h
    simp only [Bool.and_eq_true] at h
    rw [reachableProps] at hv
    rcases List.mem_append.mp hv with hv | hv
    · exact allOpt_reachable p n s h.1 v hv
    · exact allProps_reachable p ps h.2 v hv
theorem allItems_reachable (p : Schema → Bool) :
    ∀ (i : Option Items), allItems p i = true → ∀ v ∈ reachableItems i, p v.2 = true
  | none => by intro _ v hv; cases hv
  | some (.mk item tuple) => by
    intro h v hv
    rw [allItems] at h
    simp only [Bool.and_eq_true] at h
    rw [reachableItems] at hv
    rcases List.mem_append.mp hv with hv | hv
    · exact allOpt_reachable p "" item h.1 v hv
    · exact allList_reachable p tuple h.2 v hv
end

theorem forEach_walkSchema_exact {σ : Type} (doFn : ProcessSchema σ) (fix : FixSchema σ)
    (hdo : ∀ s st, (doFn s st).1 = none) (fuel : Nat) :
    ∀ (l : List (Option Schema)) (st : σ), depthList l < fuel →
      (∀ v ∈ reachableList l, v.2.missingItems = true → installsEmpty fix v) →
      (forEach (walkSchema doFn fix fuel "") l st).outcome = .returned none ∧
        (forEach (walkSchema doFn fix fuel "") l st).calls =
          (reachableList l).filterMap expectedCall := by
  intro l
  induction l with
  | nil => intro st _ _; exact ⟨rfl, rfl⟩
  | cons x xs ihl =>
    intro st hd hf
    rw [depthList] at hd
    rw [forEach, reachableList, List.filterMap_append]
    rw [reachableList] at hf
    apply Run.andThen_exact
    · exact walkSchema_exact doFn fix hdo fuel "" x st (by omega)
        (fun v hv => hf v (List.mem_append_left _ hv))
    · intro st2
      exact ihl st2 (by omega) (fun v hv => hf v (List.mem_append_right _ hv))

theorem WalkAllSchemas_exact {σ : Type} (fuel : Nat) (spec : Spec) (doFn : ProcessSchema σ)
    (fix : Option (FixSchema σ)) (st : σ) (hnil : spec.noNilParameter = true)
    (hdo : ∀ s st, (doFn s st).1 = none) (hfuel : spec.depth < fuel)
    (hfix : ∀ v ∈ spec.reachable, v.2.missingItems = true →
      installsEmpty (fixOrDefault fix) v) :
    (WalkAllSchemas fuel spec (some doFn) fix st).outcome = .returned none ∧
      (WalkAllSchemas fuel spec (some doFn) fix st).calls =
        spec.reachable.filterMap expectedCall := by
  rw [WalkAllSchemas_eq_of_noNil fuel spec doFn fix st hnil]
  exact forEach_walkSchema_exact doFn _ hdo fuel spec.schemaRoots st hfuel hfix

theorem expectedCall_of_not_missing (v : String × Schema) (h : v.2.missingItems = false) :
    expectedCall v = if v.2.isPrimitive then some (.process v.2 none) else none := by
  unfold expectedCall Schema.isPrimitive
  unfold Schema.missingItems at h
  by_cases hobj : v.2.Type_ = "object"
  · simp [hobj]
  · by_cases harr : v.2.Type_ = "array"
    · cases hI : v.2.Items with
      | none => simp [harr, hI] at h
      | some d => simp [harr]
    · simp [hobj, harr]

theorem filterMap_expectedCall_of_not_missing (l : List (String × Schema))
    (h : ∀ v ∈ l, v.2.missingItems = false) :
    l.filterMap expectedCall =
      ((l.filter fun v => v.2.isPrimitive).map Prod.snd).map fun s => Call.process s none := by
  induction l with
  | nil => rfl
  | cons v vs ih =>
    have hv := expectedCall_of_not_missing v (h v (List.mem_cons_self _ _))
    have ih2 := ih (fun w hw => h w (List.mem_cons_of_mem _ hw))
    rw [List.filterMap_cons, hv, List.filter_cons]
    cases hp : v.2.isPrimitive with
    | true => simp [ih2]
    | false => simp [ih2]

/-- C1, as amended: for a spec without nil parameter, without `Ref` nodes and
without array schemas lacking their item descriptor, and a process function
that always returns nil, a walk with enough recursion budget returns nil and
its callback log is exactly one process call per reachable primitive schema,
in traversal order, and nothing else. -/
theorem process_called_once_per_reachable_leaf {σ : Type} (fuel : Nat) (spec : Spec)
    (doFn : ProcessSchema σ) (fix : Option (FixSchema σ)) (st : σ)
    (hNil : spec.noNilParameter = true) (_hRef : spec.noRef = true)
    (hItems : spec.noMissingItems = true)
    (hdo : ∀ s st, (doFn s st).1 = none) (hfuel : spec.depth < fuel) :
    (WalkAllSchemas fuel spec (some doFn) fix st).outcome = .returned none ∧
      (WalkAllSchemas fuel spec (some doFn) fix st).calls =
        spec.leaves.map fun s => Call.process s none := by
  have hnm : ∀ v ∈ spec.reachable, v.2.missingItems = false := by
    intro v hv
    have := allList_reachable (fun s => !s.missingItems) spec.schemaRoots hItems v hv
    simpa using this
  have h := WalkAllSchemas_exact fuel spec doFn fix st hNil hdo hfuel
    (fun v hv hm => by rw [hnm v hv] at hm; cases hm)
  rw [filterMap_expectedCall_of_not_missing _ hnm] at h
  exact h

theorem process_called_once_per_reachable_leaf_witness :
    petSpec.noNilParameter = true ∧ petSpec.noRef = true ∧
      petSpec.noMissingItems = true ∧
      (∀ s st, (acceptAll s st).1 = none) ∧ petSpec.depth < 4 ∧
      ((WalkAllSchemas 4 petSpec (some acceptAll) none ()).outcome = .returned none ∧
        (WalkAllSchemas 4 petSpec (some acceptAll) none ()).calls =
          petSpec.leaves.map fun s => Call.process s none) :=
  ⟨by decide, by decide, by decide, fun _ _ => rfl, by decide,
    process_called_once_per_reachable_leaf 4 petSpec acceptAll none ()
      (by decide) (by decide) (by decide) (fun _ _ => rfl) (by decide)⟩

/-- A counterexample to C1 as first stated: the spec `specNilParameter` holds
no schema at all, so it has no `Ref` node and no defective array, and the
process function returns nil; yet for every recursion budget the walk ends in
the panic of `walkAllSchemasInParameters` on the nil parameter, not in a nil
return, and process is never called. -/
theorem nil_parameter_panics :
    specNilParameter.noRef = true ∧ specNilParameter.noMissingItems = true ∧
      (∀ s st, (acceptAll s st).1 = none) ∧
      ∀ fuel : Nat,
        (WalkAllSchemas fuel specNilParameter (some acceptAll) none ()).outcome = .panicked ∧
        (WalkAllSchemas fuel specNilParameter (some acceptAll) none ()).outcome ≠
          .returned none ∧
        (WalkAllSchemas fuel specNilParameter (some acceptAll) none ()).calls = [] :=
  ⟨by decide, by decide, fun _ _ => rfl,
    fun _ => ⟨rfl, (fun h => Outcome.noConfusion h), rfl⟩⟩

theorem petSpec_leaves : petSpec.leaves = [schemaOfType "string", schemaOfType "number",
    schemaOfType "boolean", schemaOfType "string", schemaOfType "integer", schemaOfType "integer",
    schemaOfType "boolean", schemaOfType "string", schemaOfType "integer"] := rfl

/-! ## Repair calls -/

theorem reachableOpt_mem_list (l : List (Option Schema)) (x : Option Schema) (hx : x ∈ l)
    (v : String × Schema) (hv : v ∈ reachableOpt "" x) : v ∈ reachableList l := by
  induction l with
  | nil => cases hx
  | cons y ys ih =>
    rw [reachableList]
    rcases List.mem_cons.mp hx with hx | hx
    · subst hx
      exact List.mem_append_left _ hv
    · exact List.mem_append_right _ (ih hx)

theorem reachableOpt_mem_props (ps : List Property) (p : Property) (hp : p ∈ ps)
    (v : String × Schema) (hv : v ∈ reachableOpt p.Name p.Schema) : v ∈ reachableProps ps := by
  induction ps with
  | nil => cases hp
  | cons q qs ih =>
    cases q with
    | mk n s =>
      rw [reachableProps]
      rcases List.mem_cons.mp hp with hp | hp
      · subst hp
        exact List.mem_append_left _ hv
      · exact List.mem_append_right _ (ih hp)

theorem walkSchema_no_repair {σ : Type} (doFn : ProcessSchema σ) (fix : FixSchema σ)
    (fuel : Nat) : ∀ (name : String) (root : Option Schema) (st : σ),
    (∀ v ∈ reachableOpt name root, v.2.missingItems = false) →
    ∀ c ∈ (walkSchema doFn fix fuel name root st).calls, c.isRepair = false := by
  induction fuel with
  | zero => intro name root st _ c hc; simp [walkSchema] at hc
  | succ fuel ih =>
    intro name root st hstat
    have hlist : ∀ (l : List (Option Schema)) (st : σ),
        (∀ v ∈ reachableList l, v.2.missingItems = false) →
        ∀ c ∈ (forEach (walkSchema doFn fix fuel "") l st).calls, c.isRepair = false := by
      intro l st hl
      apply forEach_calls_forall
      intro x hx st2
      exact ih "" x st2 (fun v hv => hl v (reachableOpt_mem_list l x hx v hv))
    cases root with
    | none => intro c hc; simp [walkSchema, Run.skip] at hc
    | some s =>
      cases s with
      | mk ref ty allOf oneOf props items =>
        rw [reachableOpt, Schema.reachable] at hstat
        rw [walkSchema]
        simp only [ref_mk, type_mk, allOf_mk, oneOf_mk, properties_mk, items_mk]
        by_cases href : ref = ""
        · simp only [href, ne_eq, not_true_eq_false, ↓reduceIte] at hstat ⊢
          apply Run.andThen_calls_forall _ _ _
            (hlist allOf st (fun v hv => hstat v (List.mem_append_left _ hv)))
          intro st1
          apply Run.andThen_calls_forall _ _ _
            (hlist oneOf st1
              (fun v hv => hstat v (List.mem_append_right _ (List.mem_append_left _ hv))))
          intro st2
          have hstat2 : ∀ v ∈ ((name, Schema.mk "" ty allOf oneOf props items) ::
              (if ty = "object" then reachableProps props
               else if ty = "array" then reachableItems items else [])),
              v.2.missingItems = false :=
            fun v hv => hstat v (List.mem_append_right _ (List.mem_append_right _ hv))
          by_cases hobj : ty = "object"
          · simp only [hobj, ↓reduceIte] at hstat2 ⊢
            apply forEach_calls_forall
            intro p hp st3
            exact ih p.Name p.Schema st3 (fun v hv =>
              hstat2 v (List.mem_cons_of_mem _ (reachableOpt_mem_props props p hp v hv)))
          · by_cases harr : ty = "array"
            · subst harr
              simp only [hobj, ↓reduceIte] at hstat2 ⊢
              cases items with
              | some d =>
                cases d with
                | mk item tuple =>
                  rw [reachableItems] at hstat2
                  simp only [Run.skip_andThen, Items.Item, Items.Items]
                  apply Run.andThen_calls_forall
                  · exact ih "" item st2 (fun v hv =>
                      hstat2 v (List.mem_cons_of_mem _ (List.mem_append_left _ hv)))
                  · intro st3
                    exact hlist tuple st3 (fun v hv =>
                      hstat2 v (List.mem_cons_of_mem _ (List.mem_append_right _ hv)))
              | none =>
                have := hstat2 _ (List.mem_cons_self _ _)
                simp [Schema.missingItems, type_mk, items_mk] at this
            · simp only [hobj, harr, ↓reduceIte]
              intro c hc
              simp only [List.mem_singleton] at hc
              subst hc
              rfl
        · simp only [href, ne_eq, not_false_eq_true, ↓reduceIte]
          intro c hc
          simp [Run.skip] at hc

theorem WalkAllSchemas_no_repair {σ : Type} (fuel : Nat) (spec : Spec)
    (doFn : Option (ProcessSchema σ)) (fix : Option (FixSchema σ)) (st : σ)
    (h : ∀ v ∈ spec.reachable, v.2.missingItems = false) :
    ∀ c ∈ (WalkAllSchemas fuel spec doFn fix st).calls, c.isRepair = false := by
  cases doFn with
  | none => intro c hc; simp [WalkAllSchemas] at hc
  | some doFn =>
    rw [WalkAllSchemas_eq]
    apply forEach_calls_forall
    intro x hx st2
    cases x with
    | none => intro c hc; cases hc
    | some p =>
      have hp : p ∈ spec.schemaRoots := List.mem_filterMap.mpr ⟨some p, hx, rfl⟩
      exact walkSchema_no_repair doFn _ fuel "" p st2
        (fun v hv => h v (reachableOpt_mem_list spec.schemaRoots p hp v hv))

theorem expectedCall_of_missing (v : String × Schema) (h : v.2.missingItems = true) :
    expectedCall v = some (.repair .ErrMissingItemsInArray v.1 v.2 none) := by
  unfold Schema.missingItems at h
  simp only [Bool.and_eq_true, decide_eq_true_eq, Option.isNone_iff_eq_none] at h
  unfold expectedCall
  have hobj : ¬ v.2.Type_ = "object" := by rw [h.1]; decide
  simp [hobj, h.1, h.2]

theorem filter_isRepair_expectedCall (l : List (String × Schema)) :
    (l.filterMap expectedCall).filter Call.isRepair =
      (l.filter fun v => v.2.missingItems).map fun v =>
        Call.repair .ErrMissingItemsInArray v.1 v.2 none := by
  induction l with
  | nil => rfl
  | cons v vs ih =>
    rw [List.filterMap_cons, List.filter_cons]
    cases hm : v.2.missingItems with
    | true =>
      rw [expectedCall_of_missing v hm]
      simp [List.filter_cons, Call.isRepair, ih]
    | false =>
      rw [expectedCall_of_not_missing v hm]
      cases hp : v.2.isPrimitive with
      | true => simp [List.filter_cons, Call.isRepair, ih]
      | false => simp [ih]

/-! ## The defective array tolerated by the repair callback -/

/-- C2: on the array `&Schema{Type: "array"}`, with a repair callback that
returns nil and leaves the schema without item descriptor, `walkSchema` calls
repair and then reads `schema.Items.Item` through the nil descriptor: the run
ends in a nil-pointer panic instead of returning nil. -/
theorem tolerated_missing_items_panics (doFn : ProcessSchema Unit) (fuel : Nat)
    (name : String) :
    walkSchema doFn tolerate (fuel + 1) name (some bareArray) () =
      ⟨.panicked, [.repair .ErrMissingItemsInArray name bareArray none], ()⟩ := rfl

/-- C7: in a walk of a spec with a defective array and a repair callback that
tolerates it, no callback returns a non-nil error and yet `WalkAllSchemas` does
not return nil: it panics right after the repair call, before the sibling schema
is walked. -/
theorem walk_without_errors_panics (fuel : Nat) :
    (WalkAllSchemas (fuel + 1) specArrayThenString (some acceptAll) (some tolerate)
        ()).outcome = .panicked ∧
      (WalkAllSchemas (fuel + 1) specArrayThenString (some acceptAll) (some tolerate)
        ()).calls = [.repair .ErrMissingItemsInArray "" bareArray none] ∧
      ∀ c ∈ (WalkAllSchemas (fuel + 1) specArrayThenString (some acceptAll) (some tolerate)
        ()).calls, c.ret = none :=
  ⟨rfl, rfl, fun c hc => by
    have h : c = .repair .ErrMissingItemsInArray "" bareArray none := List.mem_singleton.mp hc
    rw [h]
    rfl⟩

/-! ## The decimal validator -/

theorem decimalMod_eq_zero_iff (v m : ℚ) :
    decimalMod v m = 0 ↔ ∃ k : ℤ, v = k * m := by
  unfold decimalMod
  have hb : (v.den : ℚ) ≠ 0 := by exact_mod_cast v.den_nz
  have hd : (m.den : ℚ) ≠ 0 := by exact_mod_cast m.den_nz
  have hv : v = (v.num : ℚ) / v.den := (Rat.num_div_den v).symm
  have hm2 : m = (m.num : ℚ) / m.den := (Rat.num_div_den m).symm
  rw [Rat.mkRat_eq_zero (Nat.mul_ne_zero v.den_nz m.den_nz), ← Int.dvd_iff_tmod_eq_zero]
  constructor
  · rintro ⟨k, hk⟩
    refine ⟨k, ?_⟩
    have hk2 : (v.num : ℚ) * m.den = m.num * v.den * k := by exact_mod_cast hk
    rw [hv, hm2]
    field_simp
    linarith
  · rintro ⟨k, hk⟩
    refine ⟨k, ?_⟩
    rw [hv, hm2] at hk
    field_simp at hk
    have : (v.num : ℚ) * m.den = m.num * v.den * k := by linarith
    exact_mod_cast this

/-- C10: with `MaxSet` true, `Validate` reports a violation when the maximum is
exclusive and `v >= Max` and when it is inclusive and `v > Max`; when neither
holds and no other constraint is configured it returns nil (an inclusive
maximum accepts `v = Max`, an exclusive one rejects it). -/
theorem validate_maximum (d : Decimal) (v : ℚ) (hset : d.MaxSet = true) :
    (((d.MaxExclusive = true ∧ v ≥ d.Max) ∨ (d.MaxExclusive = false ∧ v > d.Max)) →
      d.Validate v = some .max) ∧
    (d.MinSet = false → d.MultipleOfSet = false →
      ¬((d.MaxExclusive = true ∧ v ≥ d.Max) ∨ (d.MaxExclusive = false ∧ v > d.Max)) →
      d.Validate v = none) := by
  constructor
  · intro h
    unfold Decimal.Validate
    rcases h with ⟨hx, hv⟩ | ⟨hx, hv⟩
    · simp [hset, hx, hv]
    · simp [hset, hx, hv]
  · intro hmin hmul h
    unfold Decimal.Validate
    cases hx : d.MaxExclusive with
    | true =>
      have hv : ¬ d.Max ≤ v := fun hv => h (Or.inl ⟨hx, hv⟩)
      simp [hset, hmin, hmul, hv]
    | false =>
      have hv : ¬ d.Max < v := fun hv => h (Or.inr ⟨hx, hv⟩)
      simp [hset, hmin, hmul, hv]

theorem validate_maximum_witness :
    ({ Max := 10, MaxSet := true } : Decimal).MaxSet = true ∧
      ({ Max := 10, MaxSet := true } : Decimal).Validate 10 = none ∧
      ({ Max := 10, MaxSet := true } : Decimal).Validate 11 = some .max ∧
      ({ Max := 10, MaxSet := true, MaxExclusive := true } : Decimal).Validate 10 = some .max :=
  ⟨rfl,
    (validate_maximum { Max := 10, MaxSet := true } 10 rfl).2 rfl rfl (by decide),
    (validate_maximum { Max := 10, MaxSet := true } 11 rfl).1 (Or.inr ⟨rfl, by decide⟩),
    (validate_maximum { Max := 10, MaxSet := true, MaxExclusive := true } 10 rfl).1
      (Or.inl ⟨rfl, by decide⟩)⟩

/-- C11: with `MinSet` true, `Validate` returns a non-nil error when the
minimum is exclusive and `v <= Min` and when it is inclusive and `v < Min` (the
min violation itself when no maximum is configured); when neither holds and no
other constraint is configured it returns nil (an inclusive minimum accepts
`v = Min`, an exclusive one rejects it). -/
theorem validate_minimum (d : Decimal) (v : ℚ) (hset : d.MinSet = true) :
    (((d.MinExclusive = true ∧ v ≤ d.Min) ∨ (d.MinExclusive = false ∧ v < d.Min)) →
      d.Validate v ≠ none ∧ (d.MaxSet = false → d.Validate v = some .min)) ∧
    (d.MaxSet = false → d.MultipleOfSet = false →
      ¬((d.MinExclusive = true ∧ v ≤ d.Min) ∨ (d.MinExclusive = false ∧ v < d.Min)) →
      d.Validate v = none) := by
  constructor
  · intro h
    have hmin : (d.MinSet && ((d.MinExclusive && decide (v ≤ d.Min)) ||
        (!d.MinExclusive && decide (v < d.Min)))) = true := by
      rcases h with ⟨hx, hv⟩ | ⟨hx, hv⟩
      · simp [hset, hx, hv]
      · simp [hset, hx, hv]
    constructor
    · unfold Decimal.Validate
      by_cases hmaxv : (d.MaxSet && ((d.MaxExclusive && decide (v ≥ d.Max)) ||
          (!d.MaxExclusive && decide (v > d.Max)))) = true
      · rw [if_pos hmaxv]
        simp
      · rw [if_neg hmaxv, if_pos hmin]
        simp
    · intro hmax
      unfold Decimal.Validate
      rw [if_neg (by simp [hmax]), if_pos hmin]
  · intro hmax hmul h
    unfold Decimal.Validate
    cases hx : d.MinExclusive with
    | true =>
      have hv : ¬ v ≤ d.Min := fun hv => h (Or.inl ⟨hx, hv⟩)
      simp [hset, hmax, hmul, hv]
    | false =>
      have hv : ¬ v < d.Min := fun hv => h (Or.inr ⟨hx, hv⟩)
      simp [hset, hmax, hmul, hv]

theorem validate_minimum_witness :
    ({ Min := 10, MinSet := true } : Decimal).MinSet = true ∧
      ({ Min := 10, MinSet := true } : Decimal).Validate 10 = none ∧
      ({ Min := 10, MinSet := true } : Decimal).Validate 9 = some .min ∧
      ({ Min := 10, MinSet := true, MinExclusive := true } : Decimal).Validate 10 = some .min :=
  ⟨rfl,
    (validate_minimum { Min := 10, MinSet := true } 10 rfl).2 rfl rfl (by decide),
    ((validate_minimum { Min := 10, MinSet := true } 9 rfl).1
      (Or.inr ⟨rfl, by decide⟩)).2 rfl,
    ((validate_minimum { Min := 10, MinSet := true, MinExclusive := true } 10 rfl).1
      (Or.inl ⟨rfl, by decide⟩)).2 rfl⟩

/-- C12: with only `MultipleOfSet` configured and a non-zero `MultipleOf`,
`Validate` returns nil exactly when the value is an integer multiple of
`MultipleOf`, which is exactly when the exact remainder is zero. -/
theorem validate_multipleOf (d : Decimal) (v : ℚ) (hset : d.MultipleOfSet = true)
    (hmax : d.MaxSet = false) (hmin : d.MinSet = false) (_hm : d.MultipleOf ≠ 0) :
    (d.Validate v = none ↔ ∃ k : ℤ, v = k * d.MultipleOf) ∧
      (d.Validate v = none ↔ decimalMod v d.MultipleOf = 0) := by
  have h : d.Validate v = none ↔ decimalMod v d.MultipleOf = 0 := by
    unfold Decimal.Validate
    simp [hset, hmax, hmin]
  exact ⟨h.trans (decimalMod_eq_zero_iff v d.MultipleOf), h⟩

theorem validate_multipleOf_witness :
    ({ MultipleOf := 10, MultipleOfSet := true } : Decimal).MultipleOfSet = true ∧
      ({ MultipleOf := 10, MultipleOfSet := true } : Decimal).MultipleOf ≠ 0 ∧
      ({ MultipleOf := 10, MultipleOfSet := true } : Decimal).Validate 20 = none ∧
      ({ MultipleOf := 10, MultipleOfSet := true } : Decimal).Validate 13 ≠ none :=
  ⟨rfl, by decide,
    (validate_multipleOf { MultipleOf := 10, MultipleOfSet := true } 20 rfl rfl rfl
      (by decide)).2.mpr (by decide),
    fun h => absurd
      ((validate_multipleOf { MultipleOf := 10, MultipleOfSet := true } 13 rfl rfl rfl
        (by decide)).2.mp h) (by decide)⟩

/-- C13: a validator whose three `*Set` flags are false accepts every value,
whatever its bounds and exclusive flags hold. -/
theorem validate_unconfigured (d : Decimal) (v : ℚ) (hmax : d.MaxSet = false)
    (hmin : d.MinSet = false) (hmul : d.MultipleOfSet = false) : d.Validate v = none := by
  unfold Decimal.Validate
  simp [hmax, hmin, hmul]

theorem validate_unconfigured_witness :
    unconfiguredDecimal.MaxSet = false ∧ unconfiguredDecimal.MinSet = false ∧
      unconfiguredDecimal.MultipleOfSet = false ∧
      unconfiguredDecimal.Validate 0 = none ∧ unconfiguredDecimal.Validate (-4) = none ∧
      ({ } : Decimal).Validate 0 = none :=
  ⟨rfl, rfl, rfl, validate_unconfigured unconfiguredDecimal 0 rfl rfl rfl,
    validate_unconfigured unconfiguredDecimal (-4) rfl rfl rfl,
    validate_unconfigured { } 0 rfl rfl rfl⟩

/-- C14: `Set()` is true exactly when one of `MaxSet`, `MinSet`,
`MultipleOfSet` is true, and two validators with the same three flags give the
same answer whatever their bounds and exclusive flags. -/
theorem set_iff_some_flag (d : Decimal) :
    (d.Set = true ↔ (d.MaxSet = true ∨ d.MinSet = true ∨ d.MultipleOfSet = true)) ∧
      (∀ d2 : Decimal, d2.MaxSet = d.MaxSet → d2.MinSet = d.MinSet →
        d2.MultipleOfSet = d.MultipleOfSet → d2.Set = d.Set) := by
  constructor
  · unfold Decimal.Set
    simp [or_assoc]
  · intro d2 h1 h2 h3
    unfold Decimal.Set
    rw [h1, h2, h3]

theorem set_test_cases :
    ({ } : Decimal).Set = false ∧ ({ MaxSet := true } : Decimal).Set = true ∧
      ({ MinSet := true } : Decimal).Set = true ∧
      ({ MultipleOfSet := true } : Decimal).Set = true ∧
      unconfiguredDecimal.Set = false :=
  ⟨rfl, rfl, rfl, rfl, rfl⟩

/-- C15: each setter applied to the zero-valued validator yields exactly its
own fields and leaves every other field at zero or false. -/
theorem setters_on_zero_value (v : ℚ) :
    ({ } : Decimal).SetMaximum v = { Max := v, MaxSet := true } ∧
      ({ } : Decimal).SetExclusiveMaximum v = { Max := v, MaxSet := true, MaxExclusive := true } ∧
      ({ } : Decimal).SetMinimum v = { Min := v, MinSet := true } ∧
      ({ } : Decimal).SetExclusiveMinimum v = { Min := v, MinSet := true, MinExclusive := true } ∧
      ({ } : Decimal).SetMultipleOf v = { MultipleOf := v, MultipleOfSet := true } :=
  ⟨rfl, rfl, rfl, rfl, rfl⟩

/-! ## The order of the steps of a walk -/

theorem Run.andThen_calls {σ : Type} (r : Run σ) (k : σ → Run σ) :
    (r.andThen k).calls =
      r.calls ++ (if r.outcome = .returned none then (k r.state).calls else []) := by
  by_cases h : r.outcome = .returned none
  · rw [Run.andThen_ok r k h, if_pos h]
  · rw [Run.andThen_stop r k h, if_neg h, List.append_nil]

theorem runSteps_map {α σ : Type} (body : α → σ → Run σ) (xs : List α) :
    runSteps (xs.map body) = forEach body xs := by
  funext st
  unfold runSteps
  rw [forEach_map]

theorem runSteps_append {σ : Type} (xs ys : List (σ → Run σ)) (st : σ) :
    runSteps (xs ++ ys) st = (runSteps xs st).andThen (runSteps ys) := by
  unfold runSteps
  rw [forEach_append]

theorem runSteps_single {σ : Type} (step : σ → Run σ) (st : σ) :
    runSteps [step] st = step st := by
  have h : forEach (fun step : σ → Run σ => step) [] = Run.skip := by
    funext st2
    rfl
  show (step st).andThen (forEach (fun step : σ → Run σ => step) []) = step st
  rw [h]
  exact Run.andThen_skip _

theorem walkSchema_steps {σ : Type} (doFn : ProcessSchema σ) (fix : FixSchema σ)
    (fuel : Nat) (name : String) (s : Schema) (st : σ) (href : s.Ref = "") :
    walkSchema doFn fix (fuel + 1) name (some s) st =
      (forEach (walkSchema doFn fix fuel "") s.AllOf st).andThen fun st1 =>
        (forEach (walkSchema doFn fix fuel "") s.OneOf st1).andThen
          (runSteps (typeSteps doFn fix fuel name s)) := by
  rw [walkSchema]
  simp only [href, ne_eq, not_true_eq_false, ↓reduceIte]
  congr 1
  funext st1
  congr 1
  funext st2
  unfold typeSteps
  by_cases hobj : s.Type_ = "object"
  · simp only [if_pos hobj, runSteps_map]
  · by_cases harr : s.Type_ = "array"
    · simp only [if_neg hobj, if_pos harr]
      cases hI : s.Items with
      | some d =>
        simp only [Run.skip_andThen, hI]
        rw [show (walkSchema doFn fix fuel "" d.Item ::
            List.map (walkSchema doFn fix fuel "") d.Items) =
            List.map (walkSchema doFn fix fuel "") (d.Item :: d.Items) from rfl,
          runSteps_map, forEach]
      | none =>
        simp only
        rw [runSteps_single]
        rfl
    · simp only [if_neg hobj, if_neg harr]
      rw [runSteps_single]
      rfl

/-- C16: the walk of a non-`Ref` node is the sequential execution of the walks
of its `AllOf` children in sequence order, then of its `OneOf` children in
sequence order, then of the steps of the type switch (properties in declared
order, or the single item and the tuple items, or the process call); its log is
the log of the `AllOf` loop, followed by the log of the `OneOf` loop, followed
by the log of the type-specific steps, and for a primitive node that last part
is the single call `process(node)`. -/
theorem walkSchema_call_order {σ : Type} (doFn : ProcessSchema σ) (fix : FixSchema σ)
    (fuel : Nat) (name : String) (s : Schema) (st : σ) (href : s.Ref = "") :
    let allOf := forEach (walkSchema doFn fix fuel "") s.AllOf st
    let oneOf := forEach (walkSchema doFn fix fuel "") s.OneOf allOf.state
    let byType := runSteps (typeSteps doFn fix fuel name s) oneOf.state
    walkSchema doFn fix (fuel + 1) name (some s) st =
        runSteps (s.AllOf.map (walkSchema doFn fix fuel "") ++
          (s.OneOf.map (walkSchema doFn fix fuel "") ++ typeSteps doFn fix fuel name s)) st ∧
      (walkSchema doFn fix (fuel + 1) name (some s) st).calls =
        allOf.calls ++
          (if allOf.outcome = .returned none then
            oneOf.calls ++ (if oneOf.outcome = .returned none then byType.calls else [])
          else []) ∧
      (s.Type_ ≠ "object" → s.Type_ ≠ "array" →
        byType.calls = [Call.process s (doFn s oneOf.state).1]) := by
  intro allOf oneOf byType
  refine ⟨?_, ?_, ?_⟩
  · rw [walkSchema_steps doFn fix fuel name s st href, runSteps_append, runSteps_map]
    congr 1
    funext st1
    rw [runSteps_append, runSteps_map]
  · rw [walkSchema_steps doFn fix fuel name s st href, Run.andThen_calls, Run.andThen_calls]
  · intro hobj harr
    show (runSteps (typeSteps doFn fix fuel name s) oneOf.state).calls = _
    unfold typeSteps
    rw [if_neg hobj, if_neg harr, runSteps_single]
    rfl

theorem walkSchema_call_order_witness :
    leafWithChildren.Ref = "" ∧
      walkSchema acceptAll tolerate (1 + 1) "" (some leafWithChildren) () =
        runSteps (leafWithChildren.AllOf.map (walkSchema acceptAll tolerate 1 "") ++
          (leafWithChildren.OneOf.map (walkSchema acceptAll tolerate 1 "") ++
            typeSteps acceptAll tolerate 1 "" leafWithChildren)) () ∧
      (walkSchema acceptAll tolerate (1 + 1) "" (some leafWithChildren) ()).calls =
        [.process (schemaOfType "integer") none, .process (schemaOfType "boolean") none,
          .process leafWithChildren none] :=
  ⟨rfl, (walkSchema_call_order acceptAll tolerate 1 "" leafWithChildren () rfl).1, rfl⟩

/-- C17: the walk of a path item visits, one after another, the roots of its
shared parameters in sequence order (for each parameter its `Schema`, then the
schemas of its `Content`; a nil parameter is a panic at that point), then those
of the operations in the slots `Get`, `Put`, `Post`, `Delete`, `Options`,
`Head`, `Patch`, `Trace`; a nil operation has no root, and an operation
contributes its parameters, then the media types of its request body (none
when the body is nil), then the media types of its responses.  When no
parameter is nil the walk is one loop of `walkSchema` over these schema
pointers. -/
theorem walkPathItem_order {σ : Type} (doFn : ProcessSchema σ) (fix : FixSchema σ)
    (fuel : Nat) (item : PathItem) (st : σ) :
    walkPathItem doFn fix fuel item st =
        forEach (walkRoot doFn fix fuel)
          (item.Parameters.flatMap parameterRoots ++
            (operationRoots item.Get ++ (operationRoots item.Put ++
              (operationRoots item.Post ++ (operationRoots item.Delete ++
                (operationRoots item.Options ++ (operationRoots item.Head ++
                  (operationRoots item.Patch ++ operationRoots item.Trace)))))))) st ∧
      ((∀ r ∈ item.roots, r ≠ none) →
        walkPathItem doFn fix fuel item st =
          forEach (walkSchema doFn fix fuel "") (item.roots.filterMap fun r => r) st) ∧
      item.roots = item.Parameters.flatMap parameterRoots ++
        (operationRoots item.Get ++ (operationRoots item.Put ++
          (operationRoots item.Post ++ (operationRoots item.Delete ++
            (operationRoots item.Options ++ (operationRoots item.Head ++
              (operationRoots item.Patch ++ operationRoots item.Trace))))))) ∧
      (∀ st2, walkRoot doFn fix fuel none st2 = ⟨.panicked, [], st2⟩) ∧
      (∀ (p : Option Schema) (st2 : σ),
        walkRoot doFn fix fuel (some p) st2 = walkSchema doFn fix fuel "" p st2) ∧
      parameterRoots none = [none] ∧
      (∀ p : Parameter, parameterRoots (some p) =
        some p.Schema :: p.Content.map fun k => some k.2.Schema) ∧
      operationRoots none = [] ∧
      (∀ op : Operation, operationRoots (some op) =
        op.Parameters.flatMap parameterRoots ++
          ((match op.RequestBody with
            | none => []
            | some body => body.Content.map fun m => some m.2.Schema) ++
           op.Responses.flatMap fun r => r.2.Content.map fun m => some m.2.Schema)) ∧
      (∀ (op : Option Operation) (st2 : σ),
        walkAllSchemasInOperation doFn fix fuel op st2 =
          forEach (walkRoot doFn fix fuel) (operationRoots op) st2) := by
  have hroots : item.roots = item.Parameters.flatMap parameterRoots ++
      (operationRoots item.Get ++ (operationRoots item.Put ++
        (operationRoots item.Post ++ (operationRoots item.Delete ++
          (operationRoots item.Options ++ (operationRoots item.Head ++
            (operationRoots item.Patch ++ operationRoots item.Trace))))))) := by
    unfold PathItem.roots PathItem.slots paramsRoots
    simp only [List.flatMap_cons, List.flatMap_nil, List.append_nil]
  have hwalk : walkPathItem doFn fix fuel item st =
      forEach (walkRoot doFn fix fuel) item.roots st := by
    have hop : walkAllSchemasInOperation doFn fix fuel =
        fun op => forEach (walkRoot doFn fix fuel) (operationRoots op) := by
      funext op
      exact walkAllSchemasInOperation_eq doFn fix fuel op
    unfold walkPathItem PathItem.roots
    rw [walkAllSchemasInParameters_eq, hop, forEach_append]
    congr 1
    funext st2
    rw [← forEach_flatMap]
    rfl
  refine ⟨?_, ?_, hroots, fun _ => rfl, fun _ _ => rfl, rfl, ?_, rfl, ?_, fun op st2 => ?_⟩
  · rw [hwalk, hroots]
  · intro hsome
    rw [hwalk, ← forEach_walkRoot_some, map_some_filterMap item.roots]
    intro r hr
    cases r with
    | none => exact absurd rfl (hsome none hr)
    | some x => rfl
  · intro p
    simp only [parameterRoots, Parameter.roots, List.map_cons, List.map_map]
    rfl
  · intro op
    simp only [operationRoots, paramsRoots, contentRoots, List.map_map]
    cases op.RequestBody with
    | none => rfl
    | some body => rfl
  · rw [walkAllSchemasInOperation_eq]

/-- C18: the log of `WalkAllSchemas` is the log of the loop over the path
items, followed by the log of the walk of `Components.Parameters`, followed by
the log of the loop over `Components.Schemas`; each later part is present only
when the part before it returned nil. -/
theorem components_walked_after_paths {σ : Type} (fuel : Nat) (spec : Spec)
    (doFn : ProcessSchema σ) (fix : Option (FixSchema σ)) (st : σ) :
    let paths := forEach (fun item : String × PathItem =>
      walkPathItem doFn (fixOrDefault fix) fuel item.2) spec.Paths st
    let params := walkAllSchemasInParameters doFn (fixOrDefault fix) fuel
      (spec.Components.Parameters.map Prod.snd) paths.state
    let schemas := forEach (fun s : String × Option Schema =>
      walkSchema doFn (fixOrDefault fix) fuel "" s.2) spec.Components.Schemas params.state
    (WalkAllSchemas fuel spec (some doFn) fix st).calls =
        paths.calls ++
          (if paths.outcome = .returned none then
            params.calls ++ (if params.outcome = .returned none then schemas.calls else [])
          else []) ∧
      (paths.outcome = .returned none → params.outcome = .returned none →
        (WalkAllSchemas fuel spec (some doFn) fix st).outcome = schemas.outcome ∧
          (WalkAllSchemas fuel spec (some doFn) fix st).calls =
            paths.calls ++ (params.calls ++ schemas.calls)) := by
  intro paths params schemas
  have hdef : WalkAllSchemas fuel spec (some doFn) fix st =
      paths.andThen fun st1 =>
        (walkAllSchemasInParameters doFn (fixOrDefault fix) fuel
          (spec.Components.Parameters.map Prod.snd) st1).andThen fun st2 =>
        forEach (fun s : String × Option Schema =>
          walkSchema doFn (fixOrDefault fix) fuel "" s.2) spec.Components.Schemas st2 := rfl
  constructor
  · rw [hdef, Run.andThen_calls, Run.andThen_calls]
  · intro h1 h2
    rw [hdef, Run.andThen_ok _ _ h1]
    show (Run.andThen params _).outcome = _ ∧ paths.calls ++ (Run.andThen params _).calls = _
    rw [Run.andThen_ok _ _ h2]
    exact ⟨rfl, rfl⟩

theorem walkItems_exact {σ : Type} (doFn : ProcessSchema σ) (fix : FixSchema σ)
    (hdo : ∀ s st, (doFn s st).1 = none) (fuel : Nat) (d : Items) (st : σ)
    (hdepth : depthItems (some d) < fuel)
    (hfix : ∀ v ∈ reachableItems (some d), v.2.missingItems = true → installsEmpty fix v) :
    (walkItems doFn fix fuel d st).outcome = .returned none ∧
      (walkItems doFn fix fuel d st).calls =
        (reachableItems (some d)).filterMap expectedCall := by
  cases d with
  | mk item tuple =>
    rw [depthItems] at hdepth
    rw [reachableItems] at hfix ⊢
    rw [List.filterMap_append]
    unfold walkItems
    simp only [Items.Item, Items.Items]
    apply Run.andThen_exact
    · exact walkSchema_exact doFn fix hdo fuel "" item st (by omega)
        (fun v hv => hfix v (List.mem_append_left _ hv))
    · intro st2
      exact forEach_walkSchema_exact doFn fix hdo fuel tuple st2 (by omega)
        (fun v hv => hfix v (List.mem_append_right _ hv))

theorem typeSteps_defective {σ : Type} (doFn : ProcessSchema σ) (fix : FixSchema σ)
    (fuel : Nat) (name : String) (s : Schema) (harr : s.Type_ = "array")
    (hI : s.Items = none) :
    typeSteps doFn fix fuel name s = [repairAndDescend doFn fix fuel name s] := by
  have hobj : ¬ s.Type_ = "object" := by rw [harr]; decide
  unfold typeSteps
  rw [if_neg hobj, if_pos harr, hI]

theorem typeSteps_array {σ : Type} (doFn : ProcessSchema σ) (fix : FixSchema σ)
    (fuel : Nat) (name : String) (s : Schema) (d : Items) (harr : s.Type_ = "array")
    (hI : s.Items = some d) (st : σ) :
    runSteps (typeSteps doFn fix fuel name s) st = walkItems doFn fix fuel d st := by
  have hobj : ¬ s.Type_ = "object" := by rw [harr]; decide
  unfold typeSteps
  rw [if_neg hobj, if_pos harr, hI]
  simp only
  rw [show (walkSchema doFn fix fuel "" d.Item ::
      List.map (walkSchema doFn fix fuel "") d.Items) =
      List.map (walkSchema doFn fix fuel "") (d.Item :: d.Items) from rfl,
    runSteps_map, forEach]
  rfl

theorem withItems_fields (s : Schema) (items : Option Items) :
    (s.withItems items).Ref = s.Ref ∧ (s.withItems items).Type_ = s.Type_ ∧
      (s.withItems items).AllOf = s.AllOf ∧ (s.withItems items).OneOf = s.OneOf ∧
      (s.withItems items).Properties = s.Properties ∧ (s.withItems items).Items = items := by
  cases s
  exact ⟨rfl, rfl, rfl, rfl, rfl, rfl⟩

theorem withProperties_fields (s : Schema) (props : List Property) :
    (s.withProperties props).Ref = s.Ref ∧ (s.withProperties props).Type_ = s.Type_ ∧
      (s.withProperties props).AllOf = s.AllOf ∧ (s.withProperties props).OneOf = s.OneOf ∧
      (s.withProperties props).Properties = props ∧
      (s.withProperties props).Items = s.Items := by
  cases s
  exact ⟨rfl, rfl, rfl, rfl, rfl, rfl⟩

/-- C19: for a non-`Ref` array without item descriptor on which the repair
function installs the descriptor `d` and returns nil, the walk is the walk of
the composition branches, then the repair call, then the descent into `d`
(single item, then tuple items); that descent is the one made for the
well-formed array holding `d`; and when process returns nil on every schema
and `d` is well-formed, the descent returns nil after one process call per
primitive leaf of `d`. -/
theorem repaired_array_is_descended {σ : Type} (doFn : ProcessSchema σ) (fix : FixSchema σ)
    (fuel : Nat) (name : String) (s : Schema) (d : Items) (st : σ) (href : s.Ref = "")
    (harr : s.Type_ = "array") (hI : s.Items = none)
    (hfix : ∀ st2, (fix .ErrMissingItemsInArray name s st2).1 = none ∧
      (fix .ErrMissingItemsInArray name s st2).2.1.Items = some d) :
    let branches := (forEach (walkSchema doFn fix fuel "") s.AllOf st).andThen
      (forEach (walkSchema doFn fix fuel "") s.OneOf)
    walkSchema doFn fix (fuel + 1) name (some s) st =
        branches.andThen (fun st1 =>
          (⟨.returned none, [.repair .ErrMissingItemsInArray name s none],
            (fix .ErrMissingItemsInArray name s st1).2.2⟩ : Run σ).andThen
            (walkItems doFn fix fuel d)) ∧
      walkSchema doFn fix (fuel + 1) name (some (s.withItems (some d))) st =
        branches.andThen (walkItems doFn fix fuel d) ∧
      ((∀ s2 st2, (doFn s2 st2).1 = none) → depthItems (some d) < fuel →
        (∀ v ∈ reachableItems (some d), v.2.missingItems = false) →
        ∀ st2, (walkItems doFn fix fuel d st2).outcome = .returned none ∧
          (walkItems doFn fix fuel d st2).calls =
            ((reachableItems (some d)).filter fun v => v.2.isPrimitive).map
              fun v => Call.process v.2 none) := by
  intro branches
  refine ⟨?_, ?_, ?_⟩
  · rw [walkSchema_steps doFn fix fuel name s st href, ← Run.andThen_assoc]
    congr 1
    funext st1
    rw [typeSteps_defective doFn fix fuel name s harr hI, runSteps_single]
    unfold repairAndDescend
    rw [(hfix st1).1, (hfix st1).2]
  · obtain ⟨h1, h2, h3, h4, -, h6⟩ := withItems_fields s (some d)
    rw [walkSchema_steps doFn fix fuel name _ st (h1.trans href), h3, h4,
      ← Run.andThen_assoc]
    congr 1
    funext st1
    exact typeSteps_array doFn fix fuel name _ d (h2.trans harr) h6 st1
  · intro hdo hdepth hwf st2
    have h := walkItems_exact doFn fix hdo fuel d st2 hdepth
      (fun v hv hm => by rw [hwf v hv] at hm; cases hm)
    rw [filterMap_expectedCall_of_not_missing _ hwf, List.map_map] at h
    exact h

theorem repaired_array_is_descended_witness :
    bareArray.Ref = "" ∧ bareArray.Type_ = "array" ∧ bareArray.Items = none ∧
      (∀ st2, (installStringThenInteger .ErrMissingItemsInArray "" bareArray st2).1 = none ∧
        (installStringThenInteger .ErrMissingItemsInArray "" bareArray st2).2.1.Items =
          some stringThenInteger) ∧
      walkSchema acceptAll installStringThenInteger (1 + 1) "" (some bareArray) () =
        ((forEach (walkSchema acceptAll installStringThenInteger 1 "") bareArray.AllOf
            ()).andThen
          (forEach (walkSchema acceptAll installStringThenInteger 1 "")
            bareArray.OneOf)).andThen (fun st1 =>
          (⟨.returned none, [.repair .ErrMissingItemsInArray "" bareArray none],
            (installStringThenInteger .ErrMissingItemsInArray "" bareArray st1).2.2⟩ :
              Run Unit).andThen
            (walkItems acceptAll installStringThenInteger 1 stringThenInteger)) ∧
      walkSchema acceptAll installStringThenInteger (1 + 1) "" (some bareArray) () =
        ⟨.returned none,
          [.repair .ErrMissingItemsInArray "" bareArray none,
            .process (schemaOfType "string") none, .process (schemaOfType "integer") none],
          ()⟩ :=
  ⟨rfl, rfl, rfl, fun _ => ⟨rfl, rfl⟩,
    (repaired_array_is_descended acceptAll installStringThenInteger 1 "" bareArray
      stringThenInteger () rfl rfl rfl (fun _ => ⟨rfl, rfl⟩)).1, rfl⟩

/-- C20: the type switch of `walkSchema` visits only the children of the
matching `Type`.  For a non-`Ref` primitive node the walk is the walk of the
composition branches followed by the call `process(node)`, whatever its
`Properties` and `Items` hold; the walk of an object does not change when its
`Items` are replaced; the walk of an array with an item descriptor does not
change when its `Properties` are replaced; and the walk of an array without
item descriptor is the composition branches followed by the repair call and
the descent into what repair installed. -/
theorem type_switch_visits_matching_children {σ : Type} (doFn : ProcessSchema σ)
    (fix : FixSchema σ) (fuel : Nat) (name : String) (s : Schema) (st : σ)
    (href : s.Ref = "") :
    let branches := (forEach (walkSchema doFn fix fuel "") s.AllOf st).andThen
      (forEach (walkSchema doFn fix fuel "") s.OneOf)
    (s.Type_ ≠ "object" → s.Type_ ≠ "array" →
        walkSchema doFn fix (fuel + 1) name (some s) st =
          branches.andThen (processStep doFn s)) ∧
      (s.Type_ = "object" → ∀ items : Option Items,
        walkSchema doFn fix (fuel + 1) name (some (s.withItems items)) st =
          walkSchema doFn fix (fuel + 1) name (some s) st) ∧
      (s.Type_ = "array" → s.Items ≠ none → ∀ props : List Property,
        walkSchema doFn fix (fuel + 1) name (some (s.withProperties props)) st =
          walkSchema doFn fix (fuel + 1) name (some s) st) ∧
      (s.Type_ = "array" → s.Items = none →
        walkSchema doFn fix (fuel + 1) name (some s) st =
          branches.andThen (repairAndDescend doFn fix fuel name s)) := by
  intro branches
  refine ⟨?_, ?_, ?_, ?_⟩
  · intro hobj harr
    rw [walkSchema_steps doFn fix fuel name s st href, ← Run.andThen_assoc]
    congr 1
    funext st1
    unfold typeSteps
    rw [if_neg hobj, if_neg harr, runSteps_single]
  · intro hobj items
    obtain ⟨h1, h2, h3, h4, h5, -⟩ := withItems_fields s items
    rw [walkSchema_steps doFn fix fuel name _ st (h1.trans href),
      walkSchema_steps doFn fix fuel name s st href, h3, h4]
    congr 1
    funext st1
    congr 1
    funext st2
    unfold typeSteps
    rw [if_pos (h2.trans hobj), if_pos hobj, h5]
  · intro harr hI props
    obtain ⟨d, hd⟩ := Option.ne_none_iff_exists'.mp hI
    obtain ⟨h1, h2, h3, h4, -, h6⟩ := withProperties_fields s props
    rw [walkSchema_steps doFn fix fuel name _ st (h1.trans href),
      walkSchema_steps doFn fix fuel name s st href, h3, h4]
    congr 1
    funext st1
    congr 1
    funext st2
    rw [typeSteps_array doFn fix fuel name _ d (h2.trans harr) (h6.trans hd) st2,
      typeSteps_array doFn fix fuel name s d harr hd st2]
  · intro harr hI
    rw [walkSchema_steps doFn fix fuel name s st href, ← Run.andThen_assoc]
    congr 1
    funext st1
    rw [typeSteps_defective doFn fix fuel name s harr hI, runSteps_single]

theorem type_switch_visits_matching_children_witness :
    leafWithChildren.Ref = "" ∧ leafWithChildren.Type_ ≠ "object" ∧
      leafWithChildren.Type_ ≠ "array" ∧
      walkSchema acceptAll (refuse (.custom 3)) (1 + 1) "" (some leafWithChildren) () =
        ((forEach (walkSchema acceptAll (refuse (.custom 3)) 1 "") leafWithChildren.AllOf
            ()).andThen
          (forEach (walkSchema acceptAll (refuse (.custom 3)) 1 "")
            leafWithChildren.OneOf)).andThen (processStep acceptAll leafWithChildren) ∧
      walkSchema acceptAll (refuse (.custom 3)) (1 + 1) "" (some leafWithChildren) () =
        ⟨.returned none,
          [.process (schemaOfType "integer") none, .process (schemaOfType "boolean") none,
            .process leafWithChildren none], ()⟩ :=
  ⟨rfl, by decide, by decide,
    (type_switch_visits_matching_children acceptAll (refuse (.custom 3)) 1 ""
      leafWithChildren () rfl).1 (by decide) (by decide), rfl⟩

/-! ## The contextual name of a repair call -/

theorem Entered.name_cases {σ : Type} (fix : FixSchema σ) (name : String)
    (root : Option Schema) (n : String) (s : Schema) (h : Entered fix name root n s) :
    (n = name ∧ root = some s) ∨ n = "" ∨
      ∃ (parent : Schema) (p : Property) (n2 : String), Entered fix name root n2 parent ∧
        parent.Type_ = "object" ∧ p ∈ parent.Properties ∧ p.Name = n ∧ p.Schema = some s := by
  induction h with
  | self name s href => exact Or.inl ⟨rfl, rfl⟩
  | allOf name r c n s href hc h ih =>
    rcases ih with ⟨h1, -⟩ | h1 | ⟨parent, p, n2, h1, h2, h3, h4, h5⟩
    · exact Or.inr (Or.inl h1)
    · exact Or.inr (Or.inl h1)
    · exact Or.inr (Or.inr ⟨parent, p, n2, Entered.allOf name r c n2 parent href hc h1,
        h2, h3, h4, h5⟩)
  | oneOf name r c n s href hc h ih =>
    rcases ih with ⟨h1, -⟩ | h1 | ⟨parent, p, n2, h1, h2, h3, h4, h5⟩
    · exact Or.inr (Or.inl h1)
    · exact Or.inr (Or.inl h1)
    · exact Or.inr (Or.inr ⟨parent, p, n2, Entered.oneOf name r c n2 parent href hc h1,
        h2, h3, h4, h5⟩)
  | property name r q n s href hty hq h ih =>
    rcases ih with ⟨h1, h2⟩ | h1 | ⟨parent, p, n2, h1, h2, h3, h4, h5⟩
    · exact Or.inr (Or.inr ⟨r, q, name, Entered.self name r href, hty, hq, h1.symm, h2⟩)
    · exact Or.inr (Or.inl h1)
    · exact Or.inr (Or.inr ⟨parent, p, n2,
        Entered.property name r q n2 parent href hty hq h1, h2, h3, h4, h5⟩)
  | item name r d c n s href hty hd hc h ih =>
    rcases ih with ⟨h1, -⟩ | h1 | ⟨parent, p, n2, h1, h2, h3, h4, h5⟩
    · exact Or.inr (Or.inl h1)
    · exact Or.inr (Or.inl h1)
    · exact Or.inr (Or.inr ⟨parent, p, n2,
        Entered.item name r d c n2 parent href hty hd hc h1, h2, h3, h4, h5⟩)
  | installed name r st d c n s href hty hd hret hinst hc h ih =>
    rcases ih with ⟨h1, -⟩ | h1 | ⟨parent, p, n2, h1, h2, h3, h4, h5⟩
    · exact Or.inr (Or.inl h1)
    · exact Or.inr (Or.inl h1)
    · exact Or.inr (Or.inr ⟨parent, p, n2,
        Entered.installed name r st d c n2 parent href hty hd hret hinst hc h1,
        h2, h3, h4, h5⟩)

theorem Entered.of_childless {σ : Type} (fix : FixSchema σ) (name : String) (r : Schema)
    (n : String) (s : Schema) (hall : r.AllOf = []) (hone : r.OneOf = [])
    (hprops : r.Properties = []) (hitems : r.Items = none)
    (hfix : ∀ st, (fix .ErrMissingItemsInArray name r st).2.1.Items = none)
    (h : Entered fix name (some r) n s) : n = name ∧ s = r := by
  cases h with
  | self _ _ href => exact ⟨rfl, rfl⟩
  | allOf _ _ c _ _ href hc h => rw [hall] at hc; cases hc
  | oneOf _ _ c _ _ href hc h => rw [hone] at hc; cases hc
  | property _ _ p _ _ href hty hp h => rw [hprops] at hp; cases hp
  | item _ _ d c _ _ href hty hd hc h => rw [hitems] at hd; cases hd
  | installed _ _ st d c _ _ href hty hd hret hinst hc h => rw [hfix st] at hinst; cases hinst

theorem bareArray_entered_only_under_root_name (n : String) (s : Schema)
    (h : Entered tolerate "" (some bareArray) n s) : n = "" ∧ s = bareArray :=
  Entered.of_childless tolerate "" bareArray n s rfl rfl rfl rfl (fun _ => rfl) h

/-- C9: for every spec, every pair of callbacks and every recursion budget,
(1) each repair call of the walk is `repair(ErrMissingItemsInArray, n, s)` for
a non-`Ref` schema `s` of type `array` without item descriptor, made at a
position that the descent enters from a root schema of the spec and carrying
the contextual name of that position: the property's `Name` for the schema of
a property of an object, the empty string for a root, a composition branch or
an array item; (2) no repair call is made when no reachable array lacks its
item descriptor; (3) when no parameter is nil, the callbacks return nil and
repair installs an empty descriptor, the repair calls are exactly the reachable
defective arrays in traversal order, each with the contextual name of its
position; (4) the walk starts every root under the empty name, the walk of an
object passes to each property's schema that property's `Name`, the walk of an
array passes the empty name to its items, and an array without item descriptor
calls repair with its own contextual name. -/
theorem repair_calls_are_for_defective_arrays {σ : Type} (fuel : Nat) (spec : Spec)
    (doFn : Option (ProcessSchema σ)) (fix : Option (FixSchema σ)) (st : σ) :
    (∀ e n s r, Call.repair e n s r ∈ (WalkAllSchemas fuel spec doFn fix st).calls →
      e = .ErrMissingItemsInArray ∧ s.Ref = "" ∧ s.Type_ = "array" ∧ s.Items = none ∧
        ∃ root ∈ spec.schemaRoots, Entered (fixOrDefault fix) "" root n s) ∧
    ((∀ v ∈ spec.reachable, v.2.missingItems = false) →
      ∀ c ∈ (WalkAllSchemas fuel spec doFn fix st).calls, c.isRepair = false) ∧
    (∀ d, doFn = some d → spec.noNilParameter = true → (∀ s st2, (d s st2).1 = none) →
      (∀ v ∈ spec.reachable, v.2.missingItems = true → installsEmpty (fixOrDefault fix) v) →
      spec.depth < fuel →
      (WalkAllSchemas fuel spec doFn fix st).calls.filter Call.isRepair =
        spec.expectedRepairs) ∧
    (∀ d, doFn = some d →
      WalkAllSchemas fuel spec doFn fix st =
        forEach (walkRoot d (fixOrDefault fix) fuel) spec.roots st) ∧
    (∀ (d : ProcessSchema σ) (f : FixSchema σ) (fuel2 : Nat) (name : String) (s : Schema)
        (st2 : σ), s.Ref = "" →
      (s.Type_ = "object" →
        walkSchema d f (fuel2 + 1) name (some s) st2 =
          ((forEach (walkSchema d f fuel2 "") s.AllOf st2).andThen
            (forEach (walkSchema d f fuel2 "") s.OneOf)).andThen
            (forEach (fun p : Property => walkSchema d f fuel2 p.Name p.Schema)
              s.Properties)) ∧
      (s.Type_ = "array" → ∀ items : Items, s.Items = some items →
        walkSchema d f (fuel2 + 1) name (some s) st2 =
          ((forEach (walkSchema d f fuel2 "") s.AllOf st2).andThen
            (forEach (walkSchema d f fuel2 "") s.OneOf)).andThen fun st3 =>
            (walkSchema d f fuel2 "" items.Item st3).andThen
              (forEach (walkSchema d f fuel2 "") items.Items)) ∧
      (s.Type_ = "array" → s.Items = none →
        walkSchema d f (fuel2 + 1) name (some s) st2 =
          ((forEach (walkSchema d f fuel2 "") s.AllOf st2).andThen
            (forEach (walkSchema d f fuel2 "") s.OneOf)).andThen fun st3 =>
            (⟨.returned (f .ErrMissingItemsInArray name s st3).1,
              [.repair .ErrMissingItemsInArray name s (f .ErrMissingItemsInArray name s st3).1],
              (f .ErrMissingItemsInArray name s st3).2.2⟩ : Run σ).andThen fun st4 =>
              match (f .ErrMissingItemsInArray name s st3).2.1.Items with
              | none => ⟨.panicked, [], st4⟩
              | some items =>
                (walkSchema d f fuel2 "" items.Item st4).andThen
                  (forEach (walkSchema d f fuel2 "") items.Items))) := by
  refine ⟨?_, WalkAllSchemas_no_repair fuel spec doFn fix st, ?_, ?_, ?_⟩
  · intro e n s r h
    cases doFn with
    | none => simp [WalkAllSchemas] at h
    | some d =>
      obtain ⟨h1, h2, h3, h4, -⟩ := WalkAllSchemas_calls_ok fuel spec d fix st _ h
      exact ⟨h1, h2, h3, h4, WalkAllSchemas_calls_entered fuel spec d fix st _ h⟩
  · intro d hd hnil hdo hfix hfuel
    subst hd
    rw [(WalkAllSchemas_exact fuel spec d fix st hnil hdo hfuel hfix).2]
    exact filter_isRepair_expectedCall _
  · intro d hd
    subst hd
    exact WalkAllSchemas_eq fuel spec d fix st
  · intro d f fuel2 name s st2 href
    refine ⟨?_, ?_, ?_⟩
    · intro hobj
      rw [walkSchema_steps d f fuel2 name s st2 href, ← Run.andThen_assoc]
      congr 1
      funext st3
      unfold typeSteps
      rw [if_pos hobj, runSteps_map]
    · intro harr items hI
      rw [walkSchema_steps d f fuel2 name s st2 href, ← Run.andThen_assoc]
      congr 1
      funext st3
      rw [typeSteps_array d f fuel2 name s items harr hI st3]
      rfl
    · intro harr hI
      rw [walkSchema_steps d f fuel2 name s st2 href, ← Run.andThen_assoc]
      congr 1
      funext st3
      rw [typeSteps_defective d f fuel2 name s harr hI, runSteps_single]
      rfl

theorem repair_calls_are_for_defective_arrays_witness :
    ((WalkAllSchemas 4 specDefectiveArrays (some acceptAll) (some installEmptyItems)
        ()).calls.filter Call.isRepair = specDefectiveArrays.expectedRepairs) ∧
      specDefectiveArrays.expectedRepairs =
        [.repair .ErrMissingItemsInArray "" bareArray none,
         .repair .ErrMissingItemsInArray "tags" bareArray none,
         .repair .ErrMissingItemsInArray "" bareArray none] :=
  ⟨(repair_calls_are_for_defective_arrays 4 specDefectiveArrays (some acceptAll)
      (some installEmptyItems) ()).2.2.1 acceptAll rfl (by decide) (fun _ _ => rfl)
      (fun v _ _ _ => ⟨rfl, by cases v.2; rfl⟩) (by decide), rfl⟩

end Ogen
